import Mathlib

/-!
Verification development for the document-comparer backend
(`src/backend/document_comparer`).  Python source functions are embedded
shallowly: strings become `List Char`, floats that only ever hold fuzzy
ratios become `ℚ`, Python exceptions become `Except PyErr`, and mutation
of `self` becomes explicit state passing.  Names follow the Python source.
-/

namespace DocComparer

/-- Python exceptions that the embedded code can raise. -/
inductive PyErr where
  | valueError (msg : String)
  | attributeError (msg : String)
  deriving DecidableEq, Repr

/-- Python strings are modelled as lists of characters. -/
abbrev PyStr := List Char

/-- ASCII whitespace, the characters matched by Python's `\s` for the
    inputs this code base handles. -/
def isPySpace (c : Char) : Bool :=
  c = ' ' || c = '\t' || c = '\n' || c = '\r' || c = '\x0b' || c = '\x0c'

/-- Python slice `s[i:j]` for integer (possibly negative) bounds:
    negative indices count from the end, then both bounds are clamped. -/
def pySlice (s : PyStr) (i j : Int) : PyStr :=
  let n : Int := s.length
  let conv : Int → Int := fun k => if k < 0 then max (k + n) 0 else min k n
  let a := conv i
  let b := conv j
  if a ≥ b then [] else (s.drop a.toNat).take (b - a).toNat

/-- Python slice with natural-number bounds (`s[i:j]` for `0 ≤ i, j`). -/
def pySliceN (s : PyStr) (i j : ℕ) : PyStr :=
  (s.drop i).take (j - i)

/-- `str.find(sub, start)` for a single-character needle: index of the first
    occurrence at position `≥ start`, as `none` for Python's `-1`. -/
def pyFindFrom (s : PyStr) (c : Char) (start : ℕ) : Option ℕ :=
  (List.range s.length).find? (fun i => decide (start ≤ i) && s.getD i ' ' = c)

/-- `str.rfind(sub, 0, stop)` for a single-character needle: index of the last
    occurrence at position `< stop`, as `none` for Python's `-1`. -/
def pyRfindBefore (s : PyStr) (c : Char) (stop : ℕ) : Option ℕ :=
  ((List.range s.length).filter (fun i => decide (i < stop) && s.getD i ' ' = c)).getLast?

/-- Python `str.strip()`: remove leading and trailing whitespace. -/
def pyStrip (s : PyStr) : PyStr :=
  (s.dropWhile isPySpace).reverse.dropWhile isPySpace |>.reverse

/-- Python `str.isnumeric()` restricted to ASCII digits: true on a
    non-empty all-digit string. -/
def pyIsNumeric (s : PyStr) : Bool :=
  !s.isEmpty && s.all (fun c => c.isDigit)

/-- Python `str.split()` with no argument: split on whitespace runs,
    discarding empty pieces. -/
def pySplitWs (s : PyStr) : List PyStr :=
  let step := fun (acc : List PyStr × PyStr) (c : Char) =>
    if isPySpace c then (if acc.2.isEmpty then acc else (acc.1 ++ [acc.2.reverse], []))
    else (acc.1, c :: acc.2)
  let r := s.foldl step ([], [])
  if r.2.isEmpty then r.1 else r.1 ++ [r.2.reverse]

/-- Python `str.split(sep)` for a one-character separator: keeps empty
    pieces, `"".split(sep) == [""]`. -/
def pySplitOn (sep : Char) (s : PyStr) : List PyStr :=
  let rec go (cur : PyStr) : PyStr → List PyStr
    | [] => [cur.reverse]
    | c :: rest => if c = sep then cur.reverse :: go [] rest else go (c :: cur) rest
  go [] s

/-! ### `constants.py` -/

/-- `JUNK_PATTERN = re.compile(r'[-|_|\*\s]')`: the character class
    `-`, `|`, `_`, `*` and whitespace. -/
def junkChar (c : Char) : Bool :=
  c = '-' || c = '|' || c = '_' || c = '*' || isPySpace c

/-- `JUNK_PATTERN.sub('', s)`: drop every junk character. -/
def junkSub (s : PyStr) : PyStr :=
  s.filter (fun c => !junkChar c)

/-! ### `text_matcher.py`: `TextMatcher.is_changed` -/

/-- `TextMatcher.is_changed(tag, subtext_left, subtext_right)`:
    an `equal` opcode is never a change; otherwise the two sides are
    compared after removing junk characters. -/
def is_changed (tag : String) (subtext_left subtext_right : PyStr) : Bool :=
  if tag = "equal" then false
  else junkSub subtext_left ≠ junkSub subtext_right

/-! ### `paragraph.py` -/

/-- `Paragraph` dataclass: text, id and a payload of metadata
    (the ordered dict is modelled as an association list). -/
structure Paragraph where
  text : PyStr
  id : PyStr
  payload : List (PyStr × Int) := []
  deriving DecidableEq, Repr, Inhabited

/-! ### Similarity scorer (`rapidfuzz.fuzz.ratio`)

`fuzz.ratio` is the normalised indel similarity scaled to `[0,100]`:
`100 * (|a| + |b| - indel(a,b)) / (|a| + |b|)` with
`indel(a,b) = |a| + |b| - 2 * lcs(a,b)`, and `100` when both strings are
empty.  `rapidfuzz` is an external library; this is its documented
contract, expressed through the longest common subsequence. -/

/-- One row update of the longest-common-subsequence dynamic program. -/
def lcsStep (b : List Char) (row : List ℕ) (ca : Char) : List ℕ :=
  let rec go : List Char → List ℕ → ℕ → ℕ → List ℕ
    | [], _, _, _ => []
    | _ :: _, [], _, _ => []
    | cb :: bs, up :: rest, diag, left =>
      let v := if ca = cb then diag + 1 else max up left
      v :: go bs rest up v
  match row with
  | [] => []
  | r0 :: rest => 0 :: go b rest r0 0

/-- Length of the longest common subsequence of two strings. -/
def lcs (a b : List Char) : ℕ :=
  (a.foldl (lcsStep b) (List.replicate (b.length + 1) 0)).getLastD 0

/-- `fuzz.ratio(a, b)` as a rational in `[0, 100]`. -/
def fuzz_ratio (a b : PyStr) : ℚ :=
  if a.length + b.length = 0 then 100
  else 200 * (lcs a b : ℚ) / ((a.length : ℚ) + (b.length : ℚ))

/-! ### `optimal_assignment.py` and the solver

`scipy.optimize.linear_sum_assignment` is an external dependency.
Modelled from the spec: "solve maximum-weight bipartite assignment
(rectangular assignment; unmatched rows/cols when `m≠n` are allowed)" —
a one-to-one assignment of size `min(m,n)` maximising the total score,
returned with row indices ascending.  The model enumerates every complete
assignment and keeps a maximising one. -/

/-- Number of rows of a score matrix. -/
def nrows (M : List (List ℚ)) : ℕ := M.length

/-- Number of columns of a (rectangular) score matrix. -/
def ncols (M : List (List ℚ)) : ℕ := (M.headD []).length

/-- Entry `M[i][j]` of a score matrix, `0` out of bounds. -/
def entry (M : List (List ℚ)) (i j : ℕ) : ℚ := (M.getD i []).getD j 0

/-- All ways to pick an ordered tuple of `k` distinct values out of
    `avail`. -/
def injective_tuples (avail : List ℕ) : ℕ → List (List ℕ)
  | 0 => [[]]
  | k + 1 => avail.flatMap (fun c => (injective_tuples (avail.erase c) k).map (c :: ·))

/-- Total score of a pair list against a matrix. -/
def pair_sum (M : List (List ℚ)) (pairs : List (ℕ × ℕ)) : ℚ :=
  (pairs.map (fun p => entry M p.1 p.2)).sum

/-- First maximiser of `f` in a list. -/
def argmax_by (f : α → ℚ) : List α → Option α
  | [] => none
  | x :: xs => some (xs.foldl (fun b y => if f y > f b then y else b) x)

/-- Every complete one-to-one assignment of size `min(m,n)` for an
    `m × n` matrix, as `(row, col)` pair lists. -/
def assignment_candidates (M : List (List ℚ)) : List (List (ℕ × ℕ)) :=
  if nrows M ≤ ncols M then
    (injective_tuples (List.range (ncols M)) (nrows M)).map
      (fun cs => (List.range (nrows M)).zip cs)
  else
    (injective_tuples (List.range (nrows M)) (ncols M)).map
      (fun rs => rs.zip (List.range (ncols M)))

/-- Stable insertion of a pair into a row-sorted pair list. -/
def insert_by_row (p : ℕ × ℕ) : List (ℕ × ℕ) → List (ℕ × ℕ)
  | [] => [p]
  | q :: qs => if p.1 ≤ q.1 then p :: q :: qs else q :: insert_by_row p qs

/-- Sort a pair list by row index (scipy returns ascending row indices). -/
def sort_by_row (l : List (ℕ × ℕ)) : List (ℕ × ℕ) :=
  l.foldr insert_by_row []

/-- `find_optimal_matches(score_matrix)`: the Hungarian step, i.e.
    `linear_sum_assignment(score_matrix, maximize=True)` under the model
    above. -/
def find_optimal_matches (M : List (List ℚ)) : List (ℕ × ℕ) :=
  sort_by_row ((argmax_by (pair_sum M) (assignment_candidates M)).getD [])

/-- The matrix-level part of `compute_optimal_matches`: Hungarian
    assignment followed by the strict threshold filter, keeping scores. -/
def compute_optimal_matches_matrix (M : List (List ℚ)) (ratio_threshold : ℚ) :
    List (ℕ × ℕ × ℚ) :=
  (find_optimal_matches M).filterMap fun p =>
    if entry M p.1 p.2 > ratio_threshold then some (p.1, p.2, entry M p.1 p.2) else none

/-- `calculate_score_matrix(texts_left, texts_right)`. -/
def calculate_score_matrix (texts_left texts_right : List Paragraph) : List (List ℚ) :=
  texts_left.map (fun t1 => texts_right.map (fun t2 => fuzz_ratio t1.text t2.text))

/-- One element of the list returned by `compute_optimal_matches`:
    `(i, texts_left[i], j, texts_right[j], score_matrix[i][j])`. -/
structure Match5 where
  pos_left : ℕ
  para_left : Paragraph
  pos_right : ℕ
  para_right : Paragraph
  score : ℚ
  deriving DecidableEq, Repr, Inhabited

/-- `compute_optimal_matches(texts_left, texts_right, ratio_threshold)`:
    score matrix, Hungarian assignment, strict filter above the
    threshold.  Indexing `texts_left[i]` is total (`getD`) because the
    solver only produces in-bounds indices. -/
def compute_optimal_matches (texts_left texts_right : List Paragraph)
    (ratio_threshold : ℚ) : List Match5 :=
  let M := calculate_score_matrix texts_left texts_right
  (find_optimal_matches M).filterMap fun p =>
    if entry M p.1 p.2 > ratio_threshold then
      some ⟨p.1, texts_left.getD p.1 default, p.2, texts_right.getD p.2 default,
            entry M p.1 p.2⟩
    else none

/-! ### `difflib.SequenceMatcher`

`TextMatcher.get_edit_operations` delegates to the standard library's
`difflib.SequenceMatcher(junk, text_left, text_right).get_opcodes()`.
The matcher is embedded here following CPython's `difflib.py`:
`__chain_b` (the `b2j` index with junk and popular elimination),
`find_longest_match`, the stack-driven `get_matching_blocks` and
`get_opcodes`.  Dictionaries become association lists (which preserve
Python's insertion order). -/

/-- Lookup in an association list with a default (`dict.get`). -/
def alGet [DecidableEq κ] (al : List (κ × ν)) (k : κ) (d : ν) : ν :=
  match al.find? (fun p => p.1 = k) with
  | some p => p.2
  | none => d

/-- Assignment in an association list (`dict[k] = v`): an existing key
    keeps its position, a new key is appended. -/
def alSet [DecidableEq κ] (al : List (κ × ν)) (k : κ) (v : ν) : List (κ × ν) :=
  if al.any (fun p => p.1 = k) then
    al.map (fun p => if p.1 = k then (k, v) else p)
  else al ++ [(k, v)]

/-- The `b2j` mapping before junk elimination: each character of `b` to
    its ascending list of positions. -/
def build_b2j (b : List Char) : List (Char × List ℕ) :=
  b.enum.foldl (fun al p => alSet al p.2 (alGet al p.2 [] ++ [p.1])) []

/-- State of a `SequenceMatcher(isjunk, a, b)` after `__chain_b`. -/
structure SeqMatcher where
  a : List Char
  b : List Char
  b2j : List (Char × List ℕ)
  isbjunk : Char → Bool

/-- `SequenceMatcher.__init__` followed by `__chain_b`, with
    `autojunk=True` as in the default constructor used by the source. -/
def mk_seq_matcher (junk : Option (Char → Bool)) (a b : List Char) : SeqMatcher :=
  let isjunk : Char → Bool := fun c => match junk with | none => false | some f => f c
  let b2j0 := build_b2j b
  let bjunk : Char → Bool := fun c => isjunk c && b.contains c
  let b2j1 := b2j0.filter (fun p => !bjunk p.1)
  let n := b.length
  let popular : Char → Bool := fun c =>
    decide (200 ≤ n) && decide (n / 100 + 1 < (alGet b2j1 c []).length)
  let b2j2 := b2j1.filter (fun p => !popular p.1)
  ⟨a, b, b2j2, bjunk⟩

/-- A matching block `(i, j, size)` (`difflib.Match`). -/
structure MatchTriple where
  i : ℕ
  j : ℕ
  size : ℕ
  deriving DecidableEq, Repr

/-- Inner loop of `find_longest_match` over the candidate positions `js`
    of `a[i]` inside `b`: builds `newj2len` and updates the best match.
    `j2len.get(j-1, 0)` at `j = 0` queries Python key `-1`, which is never
    present, hence the explicit zero. -/
def flm_inner (j2len : List (ℕ × ℕ)) (blo bhi i : ℕ) :
    List ℕ → List (ℕ × ℕ) → MatchTriple → List (ℕ × ℕ) × MatchTriple
  | [], acc, best => (acc, best)
  | j :: rest, acc, best =>
    if j < blo then flm_inner j2len blo bhi i rest acc best
    else if bhi ≤ j then (acc, best)
    else
      let k := (if j = 0 then 0 else alGet j2len (j - 1) 0) + 1
      let acc2 := alSet acc j k
      let best2 := if k > best.size then MatchTriple.mk (i + 1 - k) (j + 1 - k) k else best
      flm_inner j2len blo bhi i rest acc2 best2

/-- Outer loop of `find_longest_match` over the rows `alo … ahi-1`. -/
def flm_rows (sm : SeqMatcher) (blo bhi : ℕ) :
    List ℕ → List (ℕ × ℕ) → MatchTriple → MatchTriple
  | [], _, best => best
  | i :: is, j2len, best =>
    let js := alGet sm.b2j (sm.a.getD i ' ') []
    let r := flm_inner j2len blo bhi i js [] best
    flm_rows sm blo bhi is r.1 r.2

/-- One backward extension loop of `find_longest_match`; `wantJunk`
    selects the junk or the non-junk variant. -/
def flm_ext_back (sm : SeqMatcher) (alo blo : ℕ) (wantJunk : Bool)
    (besti bestj bestsize : ℕ) : MatchTriple :=
  if h : alo < besti ∧ blo < bestj ∧
      sm.isbjunk (sm.b.getD (bestj - 1) ' ') = wantJunk ∧
      sm.a.getD (besti - 1) ' ' = sm.b.getD (bestj - 1) ' ' then
    flm_ext_back sm alo blo wantJunk (besti - 1) (bestj - 1) (bestsize + 1)
  else ⟨besti, bestj, bestsize⟩
  termination_by besti
  decreasing_by omega

/-- One forward extension loop of `find_longest_match`. -/
def flm_ext_fwd (sm : SeqMatcher) (ahi bhi : ℕ) (wantJunk : Bool)
    (besti bestj bestsize : ℕ) : MatchTriple :=
  if h : besti + bestsize < ahi ∧ bestj + bestsize < bhi ∧
      sm.isbjunk (sm.b.getD (bestj + bestsize) ' ') = wantJunk ∧
      sm.a.getD (besti + bestsize) ' ' = sm.b.getD (bestj + bestsize) ' ' then
    flm_ext_fwd sm ahi bhi wantJunk besti bestj (bestsize + 1)
  else ⟨besti, bestj, bestsize⟩
  termination_by ahi - (besti + bestsize)
  decreasing_by omega

/-- `SequenceMatcher.find_longest_match(alo, ahi, blo, bhi)`. -/
def find_longest_match (sm : SeqMatcher) (alo ahi blo bhi : ℕ) : MatchTriple :=
  let best0 : MatchTriple := ⟨alo, blo, 0⟩
  let best1 := flm_rows sm blo bhi (List.range' alo (ahi - alo)) [] best0
  let best2 := flm_ext_back sm alo blo false best1.i best1.j best1.size
  let best3 := flm_ext_fwd sm ahi bhi false best2.i best2.j best2.size
  let best4 := flm_ext_back sm alo blo true best3.i best3.j best3.size
  flm_ext_fwd sm ahi bhi true best4.i best4.j best4.size

/-- A work-stack window `(alo, ahi, blo, bhi)` of `get_matching_blocks`. -/
structure Window where
  alo : ℕ
  ahi : ℕ
  blo : ℕ
  bhi : ℕ
  deriving DecidableEq, Repr

/-- Area measure of a window, used for termination of the work stack. -/
def Window.size (w : Window) : ℕ := (w.ahi - w.alo) + (w.bhi - w.blo)

/-- Total size of a stack of windows. -/
def stack_size (q : List Window) : ℕ := (q.map Window.size).sum

/-- One iteration of the `while queue:` loop of `get_matching_blocks`:
    the sub-windows pushed (top of stack first) and the block found. -/
def queue_step (sm : SeqMatcher) (w : Window) : List Window × Option MatchTriple :=
  let x := find_longest_match sm w.alo w.ahi w.blo w.bhi
  if x.size ≠ 0 then
    let push1 : List Window :=
      if w.alo < x.i ∧ w.blo < x.j then [⟨w.alo, x.i, w.blo, x.j⟩] else []
    let push2 : List Window :=
      if x.i + x.size < w.ahi ∧ x.j + x.size < w.bhi then
        [⟨x.i + x.size, w.ahi, x.j + x.size, w.bhi⟩] else []
    (push2 ++ push1, some x)
  else ([], none)

/-- An association-list lookup either returns the default or a value
    actually paired with the key in the list. -/
theorem alGet_cases [DecidableEq κ] (al : List (κ × ν)) (k : κ) (d : ν) :
    alGet al k d = d ∨ (k, alGet al k d) ∈ al := by
  unfold alGet
  cases h : al.find? (fun p => p.1 = k) with
  | none => exact Or.inl rfl
  | some p =>
    right
    have hmem := List.mem_of_find?_eq_some h
    have hk := List.find?_some h
    simp only [decide_eq_true_eq] at hk
    cases p
    simp_all

/-- Membership after an association-list assignment. -/
theorem alSet_mem [DecidableEq κ] {al : List (κ × ν)} {k : κ} {v : ν} {p : κ × ν}
    (h : p ∈ alSet al k v) : p ∈ al ∨ p = (k, v) := by
  unfold alSet at h
  split at h
  · rcases List.mem_map.mp h with ⟨q, hq, hqe⟩
    by_cases hqk : q.1 = k
    · rw [if_pos hqk] at hqe; exact Or.inr hqe.symm
    · rw [if_neg hqk] at hqe; exact Or.inl (hqe ▸ hq)
  · rcases List.mem_append.mp h with h1 | h1
    · exact Or.inl h1
    · right; simpa using h1

/-- The result of `find_longest_match` lies inside the window, except for
    the degenerate empty match at the window origin. -/
def MTOk (alo ahi blo bhi : ℕ) (m : MatchTriple) : Prop :=
  m = ⟨alo, blo, 0⟩ ∨
    (alo ≤ m.i ∧ blo ≤ m.j ∧ m.i + m.size ≤ ahi ∧ m.j + m.size ≤ bhi)

/-- Row invariant of the `j2len` dynamic program: every chain recorded in
    the row for line `i` starts inside the window and is no longer than
    the distance to the window origin. -/
def RowInv (alo blo bhi i : ℕ) (al : List (ℕ × ℕ)) : Prop :=
  ∀ p ∈ al, blo ≤ p.1 ∧ p.1 < bhi ∧ 1 ≤ p.2 ∧ p.2 + alo ≤ i ∧ p.2 + blo ≤ p.1 + 1

theorem flm_inner_spec (alo ahi blo bhi : ℕ) (j2len : List (ℕ × ℕ)) (i : ℕ)
    (halo : alo ≤ i) (hahi : i < ahi)
    (hold : RowInv alo blo bhi i j2len) :
    ∀ (js : List ℕ) (acc : List (ℕ × ℕ)) (best : MatchTriple),
      RowInv alo blo bhi (i + 1) acc → MTOk alo ahi blo bhi best →
      RowInv alo blo bhi (i + 1) (flm_inner j2len blo bhi i js acc best).1 ∧
        MTOk alo ahi blo bhi (flm_inner j2len blo bhi i js acc best).2 := by
  intro js
  induction js with
  | nil => intro acc best hacc hbest; simpa [flm_inner] using ⟨hacc, hbest⟩
  | cons j rest ih =>
    intro acc best hacc hbest
    by_cases h1 : j < blo
    · simpa [flm_inner, h1] using ih acc best hacc hbest
    · by_cases h2 : bhi ≤ j
      · simpa [flm_inner, h1, h2] using ⟨hacc, hbest⟩
      · have hjb : blo ≤ j := Nat.le_of_not_lt h1
        have hjh : j < bhi := Nat.lt_of_not_le h2
        simp only [flm_inner, if_neg h1, if_neg h2]
        set k := (if j = 0 then 0 else alGet j2len (j - 1) 0) + 1 with hk
        have hkfacts : 1 ≤ k ∧ k + alo ≤ i + 1 ∧ k + blo ≤ j + 1 := by
          rw [hk]
          by_cases hj0 : j = 0
          · rw [if_pos hj0]; omega
          · rw [if_neg hj0]
            rcases alGet_cases j2len (j - 1) 0 with hd | hm
            · rw [hd]; omega
            · have := hold _ hm
              simp only at this
              omega
        refine ih _ _ ?_ ?_
        · intro p hp
          rcases alSet_mem hp with hpin | hpe
          · exact hacc p hpin
          · subst hpe; exact ⟨hjb, hjh, hkfacts.1, hkfacts.2.1, hkfacts.2.2⟩
        · by_cases hbetter : k > best.size
          · simp only [if_pos hbetter]
            right
            refine ⟨?_, ?_, ?_, ?_⟩ <;> simp only <;> omega
          · simpa [if_neg hbetter] using hbest

theorem flm_rows_spec (sm : SeqMatcher) (alo ahi blo bhi : ℕ) :
    ∀ (len i0 : ℕ) (j2len : List (ℕ × ℕ)) (best : MatchTriple),
      alo ≤ i0 → len ≤ ahi - i0 →
      RowInv alo blo bhi i0 j2len → MTOk alo ahi blo bhi best →
      MTOk alo ahi blo bhi (flm_rows sm blo bhi (List.range' i0 len) j2len best) := by
  intro len
  induction len with
  | zero => intro i0 j2len best _ _ _ hbest; simpa [flm_rows] using hbest
  | succ n ih =>
    intro i0 j2len best hi0 hlen hrow hbest
    have hi0ahi : i0 < ahi := by omega
    simp only [List.range'_succ, flm_rows]
    have hstep := flm_inner_spec alo ahi blo bhi j2len i0 hi0 hi0ahi hrow
      (alGet sm.b2j (sm.a.getD i0 ' ') []) [] best (by intro p hp; simp at hp) hbest
    exact ih (i0 + 1) _ _ (by omega) (by omega)
      (fun p hp => by have := hstep.1 p hp; omega) hstep.2

theorem flm_ext_back_spec (sm : SeqMatcher) (alo ahi blo bhi : ℕ) (wantJunk : Bool) :
    ∀ (besti bestj bestsize : ℕ),
      MTOk alo ahi blo bhi ⟨besti, bestj, bestsize⟩ →
      MTOk alo ahi blo bhi (flm_ext_back sm alo blo wantJunk besti bestj bestsize) := by
  intro besti
  induction besti using Nat.strong_induction_on with
  | _ besti ih =>
    intro bestj bestsize hok
    rw [flm_ext_back]
    split
    · next h =>
      refine ih (besti - 1) (by omega) (bestj - 1) (bestsize + 1) ?_
      rcases hok with hinit | hb
      · exfalso
        have : besti = alo := congrArg MatchTriple.i hinit
        omega
      · right; simp only at hb ⊢; omega
    · exact hok

theorem flm_ext_fwd_spec (sm : SeqMatcher) (alo ahi blo bhi : ℕ) (wantJunk : Bool) :
    ∀ (fuel besti bestj bestsize : ℕ), fuel = ahi - (besti + bestsize) →
      MTOk alo ahi blo bhi ⟨besti, bestj, bestsize⟩ →
      MTOk alo ahi blo bhi (flm_ext_fwd sm ahi bhi wantJunk besti bestj bestsize) := by
  intro fuel
  induction fuel using Nat.strong_induction_on with
  | _ fuel ih =>
    intro besti bestj bestsize hfuel hok
    rw [flm_ext_fwd]
    split
    · next h =>
      refine ih (ahi - (besti + bestsize + 1)) (by omega) besti bestj (bestsize + 1) rfl ?_
      rcases hok with hinit | hb
      · have h1 : besti = alo := congrArg MatchTriple.i hinit
        have h2 : bestj = blo := congrArg MatchTriple.j hinit
        have h3 : bestsize = 0 := congrArg MatchTriple.size hinit
        right; simp only; omega
      · right; simp only at hb ⊢; omega
    · exact hok

/-- `find_longest_match` stays inside its window. -/
theorem flm_bounds (sm : SeqMatcher) (alo ahi blo bhi : ℕ) :
    MTOk alo ahi blo bhi (find_longest_match sm alo ahi blo bhi) := by
  unfold find_longest_match
  have h1 := flm_rows_spec sm alo ahi blo bhi (ahi - alo) alo [] ⟨alo, blo, 0⟩
    (Nat.le_refl _) (Nat.le_refl _) (by intro p hp; simp at hp) (Or.inl rfl)
  have h2 := flm_ext_back_spec sm alo ahi blo bhi false _ _ _ h1
  have h3 := flm_ext_fwd_spec sm alo ahi blo bhi false _ _ _ _ rfl h2
  have h4 := flm_ext_back_spec sm alo ahi blo bhi true _ _ _ h3
  exact flm_ext_fwd_spec sm alo ahi blo bhi true _ _ _ _ rfl h4

/-- The blocks found inside a window lie inside it, once non-empty. -/
theorem flm_bounds_pos (sm : SeqMatcher) (alo ahi blo bhi : ℕ)
    (h : (find_longest_match sm alo ahi blo bhi).size ≠ 0) :
    alo ≤ (find_longest_match sm alo ahi blo bhi).i ∧
      blo ≤ (find_longest_match sm alo ahi blo bhi).j ∧
      (find_longest_match sm alo ahi blo bhi).i +
        (find_longest_match sm alo ahi blo bhi).size ≤ ahi ∧
      (find_longest_match sm alo ahi blo bhi).j +
        (find_longest_match sm alo ahi blo bhi).size ≤ bhi := by
  rcases flm_bounds sm alo ahi blo bhi with hinit | hb
  · exact absurd (congrArg MatchTriple.size hinit) h
  · exact hb

theorem stack_size_append (a b : List Window) :
    stack_size (a ++ b) = stack_size a + stack_size b := by
  simp [stack_size]

theorem stack_size_cons (w : Window) (q : List Window) :
    stack_size (w :: q) = w.size + stack_size q := by
  simp [stack_size]

/-- The sub-windows pushed by one stack step are strictly smaller than the
    popped window (they drop the block, which is non-empty), and there are
    at most two of them. -/
theorem queue_step_size (sm : SeqMatcher) (w : Window) :
    (queue_step sm w).1 = [] ∨
      (stack_size (queue_step sm w).1 + 2 ≤ w.size ∧ (queue_step sm w).1.length ≤ 2) := by
  unfold queue_step
  dsimp only
  split
  · next hx =>
    have hb := flm_bounds_pos sm w.alo w.ahi w.blo w.bhi hx
    have hs : 1 ≤ (find_longest_match sm w.alo w.ahi w.blo w.bhi).size :=
      Nat.one_le_iff_ne_zero.mpr hx
    right
    constructor
    · split <;> split <;>
        simp only [stack_size, List.map_append, List.map_cons, List.map_nil,
          List.sum_append, List.sum_cons, List.sum_nil, Window.size] <;> omega
    · split <;> split <;> simp
  · left; rfl

/-- The `while queue:` loop of `get_matching_blocks` as a recursion on the
    work stack (head = top of stack, matching Python's `list.pop()`). -/
def process_queue (sm : SeqMatcher) : List Window → List MatchTriple → List MatchTriple
  | [], blocks => blocks
  | w :: rest, blocks =>
    process_queue sm ((queue_step sm w).1 ++ rest) (blocks ++ (queue_step sm w).2.toList)
  termination_by q _ => 2 * stack_size q + q.length
  decreasing_by
    rcases queue_step_size sm w with h | h
    · rw [h]
      simp only [List.nil_append, stack_size_cons, List.length_cons]
      omega
    · rw [stack_size_append]
      simp only [stack_size_cons, List.length_append, List.length_cons]
      omega

/-- Python's lexicographic order on `(i, j, size)` triples, used by
    `matching_blocks.sort()`. -/
def mt_le (x y : MatchTriple) : Bool :=
  decide (x.i < y.i ∨ (x.i = y.i ∧ (x.j < y.j ∨ (x.j = y.j ∧ x.size ≤ y.size))))

/-- Stable insertion into a sorted block list. -/
def insort_mt (x : MatchTriple) : List MatchTriple → List MatchTriple
  | [] => [x]
  | y :: ys => if mt_le x y then x :: y :: ys else y :: insort_mt x ys

/-- `list.sort()` on blocks (stable, so it agrees with Python's sort). -/
def sort_mt (l : List MatchTriple) : List MatchTriple := l.foldr insort_mt []

/-- The `non_adjacent` merging pass of `get_matching_blocks`: adjacent
    blocks are coalesced, the running block is emitted when a gap
    appears.  The accumulator starts at `(0, 0, 0)` exactly as in
    difflib, and a zero-length accumulator is never emitted. -/
def non_adjacent_go (i1 j1 k1 : ℕ) : List MatchTriple → List MatchTriple
  | [] => if k1 ≠ 0 then [⟨i1, j1, k1⟩] else []
  | x :: xs =>
    if i1 + k1 = x.i ∧ j1 + k1 = x.j then non_adjacent_go i1 j1 (k1 + x.size) xs
    else (if k1 ≠ 0 then [⟨i1, j1, k1⟩] else []) ++ non_adjacent_go x.i x.j x.size xs

/-- `SequenceMatcher.get_matching_blocks()`. -/
def get_matching_blocks (sm : SeqMatcher) : List MatchTriple :=
  non_adjacent_go 0 0 0
      (sort_mt (process_queue sm [⟨0, sm.a.length, 0, sm.b.length⟩] [])) ++
    [⟨sm.a.length, sm.b.length, 0⟩]

/-- One opcode `(tag, i1, i2, j1, j2)` of `get_opcodes`. -/
structure Opcode where
  tag : String
  i1 : ℕ
  i2 : ℕ
  j1 : ℕ
  j2 : ℕ
  deriving DecidableEq, Repr

/-- The opcode-producing loop of `get_opcodes` over the matching blocks,
    carrying the cursor pair `(i, j)`. -/
def opcodes_go (i j : ℕ) : List MatchTriple → List Opcode
  | [] => []
  | x :: rest =>
    let tag : String :=
      if i < x.i ∧ j < x.j then "replace"
      else if i < x.i then "delete"
      else if j < x.j then "insert"
      else ""
    (if tag = "" then [] else [⟨tag, i, x.i, j, x.j⟩]) ++
      (if x.size ≠ 0 then [⟨"equal", x.i, x.i + x.size, x.j, x.j + x.size⟩] else []) ++
      opcodes_go (x.i + x.size) (x.j + x.size) rest

/-- `SequenceMatcher.get_opcodes()`. -/
def get_opcodes (sm : SeqMatcher) : List Opcode :=
  opcodes_go 0 0 (get_matching_blocks sm)

/-- `TextMatcher.get_edit_operations(text_left, text_right, junk=None)`:
    run `SequenceMatcher(junk, text_left, text_right).get_opcodes()`. -/
def get_edit_operations (text_left text_right : PyStr)
    (junk : Option (Char → Bool) := none) : List Opcode :=
  get_opcodes (mk_seq_matcher junk text_left text_right)

/-! ### Structure of the matching blocks

The blocks discovered by the work stack are pairwise comparable in the
"staircase" order (one block ends before the other begins in both
coordinates); after the lexicographic sort they therefore form a
monotone chain, which is what makes the opcodes tile both strings. -/

/-- `u` is contained in `v` (as windows of index space). -/
def wsub (u v : Window) : Prop :=
  v.alo ≤ u.alo ∧ u.ahi ≤ v.ahi ∧ v.blo ≤ u.blo ∧ u.bhi ≤ v.bhi

/-- `u` ends before `v` begins, in both coordinates. -/
def wbefore (u v : Window) : Prop := u.ahi ≤ v.alo ∧ u.bhi ≤ v.blo

/-- Two windows are staircase-comparable. -/
def wcomp (u v : Window) : Prop := wbefore u v ∨ wbefore v u

/-- The window occupied by a matching block. -/
def MatchTriple.rect (x : MatchTriple) : Window :=
  ⟨x.i, x.i + x.size, x.j, x.j + x.size⟩

theorem wsub_trans {u v w : Window} (h1 : wsub u v) (h2 : wsub v w) : wsub u w := by
  unfold wsub at *; omega

theorem wcomp_symm {u v : Window} (h : wcomp u v) : wcomp v u := h.symm

theorem wcomp_mono_left {u' u v : Window} (hsub : wsub u' u) (h : wcomp u v) :
    wcomp u' v := by
  unfold wcomp wbefore wsub at *; omega

/-- Invariant of the `get_matching_blocks` work stack: everything stays
    inside the global window `g`, found blocks are non-empty, and all
    windows and blocks are pairwise staircase-comparable. -/
def QInv (g : Window) (q : List Window) (blocks : List MatchTriple) : Prop :=
  (∀ w ∈ q, wsub w g) ∧ (∀ x ∈ blocks, wsub x.rect g ∧ 1 ≤ x.size) ∧
    List.Pairwise wcomp q ∧
    List.Pairwise (fun x y => wcomp x.rect y.rect) blocks ∧
    (∀ w ∈ q, ∀ x ∈ blocks, wcomp w x.rect)

/-- Replacing the top window of the stack by sub-windows of it that are
    staircase-comparable with the freshly found block preserves the
    invariant. -/
theorem qinv_extend (g w : Window) (rest : List Window) (blocks : List MatchTriple)
    (x : MatchTriple) (pushes : List Window)
    (hinv : QInv g (w :: rest) blocks)
    (hpush_sub : ∀ u ∈ pushes, wsub u w)
    (hpush_comp_x : ∀ u ∈ pushes, wcomp u x.rect)
    (hpush_pair : List.Pairwise wcomp pushes)
    (hxw : wsub x.rect w) (hxs : 1 ≤ x.size) :
    QInv g (pushes ++ rest) (blocks ++ [x]) := by
  obtain ⟨hqg, hbg, hqq, hbb, hqb⟩ := hinv
  have hwg : wsub w g := hqg w (List.mem_cons_self _ _)
  have hrestg : ∀ u ∈ rest, wsub u g := fun u hu => hqg u (List.mem_cons_of_mem _ hu)
  have hwrest : ∀ u ∈ rest, wcomp w u := (List.pairwise_cons.mp hqq).1
  have hrest : List.Pairwise wcomp rest := (List.pairwise_cons.mp hqq).2
  refine ⟨?_, ?_, ?_, ?_, ?_⟩
  · intro u hu
    rcases List.mem_append.mp hu with hu | hu
    · exact wsub_trans (hpush_sub u hu) hwg
    · exact hrestg u hu
  · intro y hy
    rcases List.mem_append.mp hy with hy | hy
    · exact hbg y hy
    · have : y = x := by simpa using hy
      exact this ▸ ⟨wsub_trans hxw hwg, hxs⟩
  · rw [List.pairwise_append]
    refine ⟨hpush_pair, hrest, ?_⟩
    intro u hu v hv
    exact wcomp_mono_left (hpush_sub u hu) (hwrest v hv)
  · rw [List.pairwise_append]
    refine ⟨hbb, List.pairwise_singleton _ _, ?_⟩
    intro y hy z hz
    have hz : z = x := by simpa using hz
    subst hz
    exact wcomp_symm (wcomp_mono_left hxw (hqb w (List.mem_cons_self _ _) y hy))
  · intro u hu y hy
    rcases List.mem_append.mp hu with hu | hu <;> rcases List.mem_append.mp hy with hy | hy
    · exact wcomp_mono_left (hpush_sub u hu) (hqb w (List.mem_cons_self _ _) y hy)
    · have : y = x := by simpa using hy
      exact this ▸ hpush_comp_x u hu
    · exact hqb u (List.mem_cons_of_mem _ hu) y hy
    · have : y = x := by simpa using hy
      subst this
      exact wcomp_symm (wcomp_mono_left hxw (hwrest u hu))

theorem process_queue_spec (sm : SeqMatcher) (g : Window) :
    ∀ (n : ℕ) (q : List Window) (blocks : List MatchTriple),
      2 * stack_size q + q.length ≤ n → QInv g q blocks →
      (∀ x ∈ process_queue sm q blocks, wsub x.rect g ∧ 1 ≤ x.size) ∧
        List.Pairwise (fun x y => wcomp x.rect y.rect) (process_queue sm q blocks) := by
  intro n
  induction n with
  | zero =>
    intro q blocks hm hinv
    match q with
    | [] => exact ⟨fun x hx => hinv.2.1 x (by simpa [process_queue] using hx),
        by simpa [process_queue] using hinv.2.2.2.1⟩
    | w :: rest => simp [List.length_cons] at hm
  | succ n ih =>
    intro q blocks hm hinv
    match q with
    | [] => exact ⟨fun x hx => hinv.2.1 x (by simpa [process_queue] using hx),
        by simpa [process_queue] using hinv.2.2.2.1⟩
    | w :: rest =>
      rw [process_queue]
      have hmeas : 2 * stack_size ((queue_step sm w).1 ++ rest) +
          ((queue_step sm w).1 ++ rest).length ≤ n := by
        rcases queue_step_size sm w with h | h
        · rw [h]
          simp only [List.nil_append, stack_size_cons, List.length_cons] at hm ⊢
          omega
        · rw [stack_size_append]
          simp only [stack_size_cons, List.length_append, List.length_cons] at hm ⊢
          omega
      refine ih _ _ hmeas ?_
      -- the step preserves the invariant
      unfold queue_step
      dsimp only
      split
      · next hx =>
        have hb := flm_bounds_pos sm w.alo w.ahi w.blo w.bhi hx
        have hxs : 1 ≤ (find_longest_match sm w.alo w.ahi w.blo w.bhi).size :=
          Nat.one_le_iff_ne_zero.mpr hx
        refine qinv_extend g w rest blocks _ _ hinv ?_ ?_ ?_ ?_ hxs
        · intro u hu
          rcases List.mem_append.mp hu with hu | hu <;> split at hu <;>
            simp only [List.mem_singleton, List.not_mem_nil] at hu <;>
              first
                | exact False.elim hu
                | (subst hu; unfold wsub; dsimp only; omega)
        · intro u hu
          rcases List.mem_append.mp hu with hu | hu <;> split at hu <;>
            simp only [List.mem_singleton, List.not_mem_nil] at hu <;>
              first
                | exact False.elim hu
                | (subst hu; unfold wcomp wbefore MatchTriple.rect; dsimp only; omega)
        · rw [List.pairwise_append]
          refine ⟨?_, ?_, ?_⟩
          · split <;> simp
          · split <;> simp
          · intro u hu v hv
            split at hu <;> simp only [List.mem_singleton, List.not_mem_nil] at hu
            split at hv <;> simp only [List.mem_singleton, List.not_mem_nil] at hv
            subst hu; subst hv
            unfold wcomp wbefore; dsimp only
            right; dsimp only; omega
        · unfold wsub MatchTriple.rect; dsimp only
          exact ⟨hb.1, hb.2.2.1, hb.2.1, hb.2.2.2⟩
      · next hx =>
        obtain ⟨hqg, hbg, hqq, hbb, hqb⟩ := hinv
        simp only [List.nil_append, Option.toList_none, List.append_nil]
        exact ⟨fun u hu => hqg u (List.mem_cons_of_mem _ hu), hbg,
          (List.pairwise_cons.mp hqq).2, hbb,
          fun u hu y hy => hqb u (List.mem_cons_of_mem _ hu) y hy⟩

theorem mt_le_iff (x y : MatchTriple) :
    mt_le x y = true ↔
      x.i < y.i ∨ (x.i = y.i ∧ (x.j < y.j ∨ (x.j = y.j ∧ x.size ≤ y.size))) := by
  simp [mt_le]

theorem mt_le_total (x y : MatchTriple) : mt_le x y = true ∨ mt_le y x = true := by
  rw [mt_le_iff, mt_le_iff]; omega

theorem mt_le_trans {x y z : MatchTriple} (h1 : mt_le x y = true)
    (h2 : mt_le y z = true) : mt_le x z = true := by
  rw [mt_le_iff] at *; omega

theorem insort_mt_mem {x : MatchTriple} {l : List MatchTriple} {z : MatchTriple}
    (h : z ∈ insort_mt x l) : z = x ∨ z ∈ l := by
  induction l with
  | nil => simpa [insort_mt] using h
  | cons y ys ih =>
    unfold insort_mt at h
    split at h
    · rcases List.mem_cons.mp h with h1 | h1
      · exact Or.inl h1
      · exact Or.inr h1
    · rcases List.mem_cons.mp h with h1 | h1
      · exact Or.inr (by simp [h1])
      · rcases ih h1 with h2 | h2
        · exact Or.inl h2
        · exact Or.inr (List.mem_cons_of_mem _ h2)

theorem insort_mt_perm (x : MatchTriple) (l : List MatchTriple) :
    (insort_mt x l).Perm (x :: l) := by
  induction l with
  | nil => simp [insort_mt]
  | cons y ys ih =>
    unfold insort_mt
    split
    · exact List.Perm.refl _
    · exact ((ih.cons y).trans (List.Perm.swap x y ys))

theorem sort_mt_perm (l : List MatchTriple) : (sort_mt l).Perm l := by
  induction l with
  | nil => simp [sort_mt]
  | cons y ys ih =>
    have : sort_mt (y :: ys) = insort_mt y (sort_mt ys) := rfl
    rw [this]
    exact (insort_mt_perm y (sort_mt ys)).trans (ih.cons y)

theorem insort_mt_sorted (x : MatchTriple) (l : List MatchTriple)
    (h : l.Pairwise (fun a b => mt_le a b = true)) :
    (insort_mt x l).Pairwise (fun a b => mt_le a b = true) := by
  induction l with
  | nil => simp [insort_mt]
  | cons y ys ih =>
    obtain ⟨hy, hys⟩ := List.pairwise_cons.mp h
    unfold insort_mt
    split
    · next hxy =>
      rw [List.pairwise_cons]
      refine ⟨?_, h⟩
      intro z hz
      rcases List.mem_cons.mp hz with hz1 | hz1
      · exact hz1 ▸ hxy
      · exact mt_le_trans hxy (hy z hz1)
    · next hxy =>
      have hyx : mt_le y x = true := by
        rcases mt_le_total x y with h1 | h1
        · exact absurd h1 hxy
        · exact h1
      rw [List.pairwise_cons]
      refine ⟨?_, ih hys⟩
      intro z hz
      rcases insort_mt_mem hz with hz1 | hz1
      · exact hz1 ▸ hyx
      · exact hy z hz1

theorem sort_mt_sorted (l : List MatchTriple) :
    (sort_mt l).Pairwise (fun a b => mt_le a b = true) := by
  induction l with
  | nil => simp [sort_mt]
  | cons y ys ih => exact insort_mt_sorted y (sort_mt ys) ih

/-- The staircase step between two blocks: the first ends before the
    second begins, in both coordinates. -/
def mt_step (x y : MatchTriple) : Prop := x.i + x.size ≤ y.i ∧ x.j + x.size ≤ y.j

/-- Staircase-comparable non-empty blocks in lexicographic order form a
    staircase chain. -/
theorem sorted_comp_step {l : List MatchTriple}
    (hsz : ∀ x ∈ l, 1 ≤ x.size)
    (hcomp : l.Pairwise (fun x y => wcomp x.rect y.rect))
    (hsort : l.Pairwise (fun a b => mt_le a b = true)) :
    l.Pairwise mt_step := by
  have hand := hcomp.and hsort
  refine hand.imp_of_mem ?_
  intro a b ha hb hab
  obtain ⟨hc, hle⟩ := hab
  rcases hc with hbefore | hbefore
  · exact ⟨hbefore.1, hbefore.2⟩
  · exfalso
    have hbsz := hsz b hb
    have h1 : b.i + b.size ≤ a.i := hbefore.1
    rw [mt_le_iff] at hle
    omega

/-- A cursor-to-chain well-formedness predicate on block lists: each block
    starts at or after the cursor, and the cursor advances to its end. -/
def BlockChain : ℕ → ℕ → List MatchTriple → Prop
  | _, _, [] => True
  | i, j, x :: xs => i ≤ x.i ∧ j ≤ x.j ∧ BlockChain (x.i + x.size) (x.j + x.size) xs

theorem block_chain_mono {i j i' j' : ℕ} {l : List MatchTriple}
    (h1 : i ≤ i') (h2 : j ≤ j') (h : BlockChain i' j' l) : BlockChain i j l := by
  cases l with
  | nil => trivial
  | cons x xs =>
    obtain ⟨ha, hb, hc⟩ := h
    exact ⟨by omega, by omega, hc⟩

/-- The non-adjacent merge of a staircase chain is again a staircase
    chain from the running block's origin. -/
theorem non_adjacent_chain (la lb : ℕ) :
    ∀ (xs : List MatchTriple) (i1 j1 k1 : ℕ),
      List.Pairwise mt_step (⟨i1, j1, k1⟩ :: xs) →
      (∀ x ∈ xs, x.i + x.size ≤ la ∧ x.j + x.size ≤ lb) →
      i1 + k1 ≤ la → j1 + k1 ≤ lb →
      BlockChain i1 j1 (non_adjacent_go i1 j1 k1 xs ++ [⟨la, lb, 0⟩]) := by
  intro xs
  induction xs with
  | nil =>
    intro i1 j1 k1 hpair hin hla hlb
    unfold non_adjacent_go
    split
    · simp only [List.cons_append, List.nil_append, BlockChain]
      refine ⟨le_refl _, le_refl _, ?_, ?_, trivial⟩ <;> omega
    · simp only [List.nil_append, BlockChain]
      refine ⟨?_, ?_, trivial⟩ <;> omega
  | cons x xs ih =>
    intro i1 j1 k1 hpair hin hla hlb
    obtain ⟨hhead, htail⟩ := List.pairwise_cons.mp hpair
    have hstep : mt_step ⟨i1, j1, k1⟩ x := hhead x (List.mem_cons_self _ _)
    have hxin := hin x (List.mem_cons_self _ _)
    unfold non_adjacent_go
    split
    · next hadj =>
      refine ih i1 j1 (k1 + x.size) ?_ (fun y hy => hin y (List.mem_cons_of_mem _ hy))
        (by omega) (by omega)
      rw [List.pairwise_cons]
      obtain ⟨hx, hxs⟩ := List.pairwise_cons.mp htail
      refine ⟨?_, hxs⟩
      intro y hy
      have := hx y hy
      unfold mt_step at this ⊢
      dsimp only at this ⊢
      omega
    · next hadj =>
      have hrest : BlockChain x.i x.j (non_adjacent_go x.i x.j x.size xs ++ [⟨la, lb, 0⟩]) := by
        refine ih x.i x.j x.size ?_ (fun y hy => hin y (List.mem_cons_of_mem _ hy))
          hxin.1 hxin.2
        rw [List.pairwise_cons]
        obtain ⟨hx, hxs⟩ := List.pairwise_cons.mp htail
        exact ⟨fun y hy => hx y hy, hxs⟩
      split
      · next hk1 =>
        rw [List.cons_append]
        simp only [BlockChain]
        refine ⟨le_refl _, le_refl _, ?_⟩
        unfold mt_step at hstep
        dsimp only at hstep
        exact block_chain_mono hstep.1 hstep.2 hrest
      · next hk1 =>
        rw [List.nil_append]
        unfold mt_step at hstep
        dsimp only at hstep
        exact block_chain_mono (by omega) (by omega) hrest

/-- Cursor position after consuming a block list, left side. -/
def endL (i : ℕ) : List MatchTriple → ℕ
  | [] => i
  | x :: xs => endL (x.i + x.size) xs

/-- Cursor position after consuming a block list, right side. -/
def endR (j : ℕ) : List MatchTriple → ℕ
  | [] => j
  | x :: xs => endR (x.j + x.size) xs

theorem endL_ge {i j : ℕ} : ∀ {bl : List MatchTriple}, BlockChain i j bl → i ≤ endL i bl
  | [], _ => le_refl _
  | x :: xs, h => by
    obtain ⟨h1, h2, h3⟩ := h
    calc i ≤ x.i + x.size := by omega
    _ ≤ endL (x.i + x.size) xs := endL_ge (i := x.i + x.size) (j := x.j + x.size) h3

theorem endR_ge {i j : ℕ} : ∀ {bl : List MatchTriple}, BlockChain i j bl → j ≤ endR j bl
  | [], _ => le_refl _
  | x :: xs, h => by
    obtain ⟨h1, h2, h3⟩ := h
    calc j ≤ x.j + x.size := by omega
    _ ≤ endR (x.j + x.size) xs := endR_ge (i := x.i + x.size) (j := x.j + x.size) h3

theorem endL_last (x : MatchTriple) : ∀ (bl : List MatchTriple) (i : ℕ),
    endL i (bl ++ [x]) = x.i + x.size := by
  intro bl
  induction bl with
  | nil => intro i; rfl
  | cons y ys ih => intro i; exact ih (y.i + y.size)

theorem endR_last (x : MatchTriple) : ∀ (bl : List MatchTriple) (j : ℕ),
    endR j (bl ++ [x]) = x.j + x.size := by
  intro bl
  induction bl with
  | nil => intro j; rfl
  | cons y ys ih => intro j; exact ih (y.j + y.size)

theorem pySliceN_refl (a : PyStr) (i : ℕ) : pySliceN a i i = [] := by
  simp [pySliceN]

theorem pySliceN_full (a : PyStr) : pySliceN a 0 a.length = a := by
  simp [pySliceN]

theorem pySliceN_append (a : PyStr) {i j k : ℕ} (h1 : i ≤ j) (h2 : j ≤ k) :
    pySliceN a i j ++ pySliceN a j k = pySliceN a i k := by
  unfold pySliceN
  have hdrop : a.drop j = (a.drop i).drop (j - i) := by
    rw [List.drop_drop]; congr 1; omega
  rw [hdrop, ← List.take_add]
  congr 1
  omega

/-- The left part of a `pre` opcode contributes exactly the left gap
    `a[i:x.i]`, which is empty when no tag is emitted. -/
theorem pre_left_concat (a : PyStr) (i j : ℕ) (x : MatchTriple) (hix : i ≤ x.i) :
    ((if (if i < x.i ∧ j < x.j then "replace"
        else if i < x.i then "delete" else if j < x.j then "insert" else "") = "" then
      ([] : List Opcode)
    else [⟨(if i < x.i ∧ j < x.j then "replace"
        else if i < x.i then "delete" else if j < x.j then "insert" else ""),
        i, x.i, j, x.j⟩]).map (fun op => pySliceN a op.i1 op.i2)).flatten =
      pySliceN a i x.i := by
  by_cases hij : i < x.i ∧ j < x.j
  · rw [if_pos hij, if_neg (by decide : ¬ ("replace" : String) = "")]
    simp
  · rw [if_neg hij]
    by_cases hi2 : i < x.i
    · rw [if_pos hi2, if_neg (by decide : ¬ ("delete" : String) = "")]
      simp
    · rw [if_neg hi2]
      have hieq : i = x.i := by omega
      by_cases hj2 : j < x.j
      · rw [if_pos hj2, if_neg (by decide : ¬ ("insert" : String) = "")]
        simp
      · rw [if_neg hj2, if_pos rfl]
        simp [hieq, pySliceN_refl]

/-- The right counterpart of `pre_left_concat`. -/
theorem pre_right_concat (b : PyStr) (i j : ℕ) (x : MatchTriple) (hjx : j ≤ x.j) :
    ((if (if i < x.i ∧ j < x.j then "replace"
        else if i < x.i then "delete" else if j < x.j then "insert" else "") = "" then
      ([] : List Opcode)
    else [⟨(if i < x.i ∧ j < x.j then "replace"
        else if i < x.i then "delete" else if j < x.j then "insert" else ""),
        i, x.i, j, x.j⟩]).map (fun op => pySliceN b op.j1 op.j2)).flatten =
      pySliceN b j x.j := by
  by_cases hij : i < x.i ∧ j < x.j
  · rw [if_pos hij, if_neg (by decide : ¬ ("replace" : String) = "")]
    simp
  · rw [if_neg hij]
    by_cases hi2 : i < x.i
    · rw [if_pos hi2, if_neg (by decide : ¬ ("delete" : String) = "")]
      simp
    · rw [if_neg hi2]
      by_cases hj2 : j < x.j
      · rw [if_pos hj2, if_neg (by decide : ¬ ("insert" : String) = "")]
        simp
      · rw [if_neg hj2, if_pos rfl]
        have hjeq : j = x.j := by omega
        simp [hjeq, pySliceN_refl]

/-- The `equal` opcode of a block contributes exactly `a[x.i : x.i+size]`
    on the left. -/
theorem eq_left_concat (a : PyStr) (x : MatchTriple) :
    ((if x.size ≠ 0 then
        [(⟨"equal", x.i, x.i + x.size, x.j, x.j + x.size⟩ : Opcode)]
      else []).map (fun op => pySliceN a op.i1 op.i2)).flatten =
      pySliceN a x.i (x.i + x.size) := by
  split
  · simp
  · next hsz =>
    have h0 : x.size = 0 := by omega
    simp [h0, pySliceN_refl]

/-- The `equal` opcode of a block contributes exactly `b[x.j : x.j+size]`
    on the right. -/
theorem eq_right_concat (b : PyStr) (x : MatchTriple) :
    ((if x.size ≠ 0 then
        [(⟨"equal", x.i, x.i + x.size, x.j, x.j + x.size⟩ : Opcode)]
      else []).map (fun op => pySliceN b op.j1 op.j2)).flatten =
      pySliceN b x.j (x.j + x.size) := by
  split
  · simp
  · next hsz =>
    have h0 : x.size = 0 := by omega
    simp [h0, pySliceN_refl]

/-- The opcodes generated from a staircase chain of blocks tile the two
    strings from the cursor to the final block. -/
theorem opcodes_tile (a b : PyStr) :
    ∀ (bl : List MatchTriple) (i j : ℕ), BlockChain i j bl →
      ((opcodes_go i j bl).map (fun op => pySliceN a op.i1 op.i2)).flatten =
          pySliceN a i (endL i bl) ∧
        ((opcodes_go i j bl).map (fun op => pySliceN b op.j1 op.j2)).flatten =
          pySliceN b j (endR j bl) := by
  intro bl
  induction bl with
  | nil =>
    intro i j _
    simp only [opcodes_go, endL, endR, List.map_nil, List.flatten_nil]
    exact ⟨(pySliceN_refl a i).symm, (pySliceN_refl b j).symm⟩
  | cons x xs ih =>
    intro i j hchain
    obtain ⟨hix, hjx, hrest⟩ := hchain
    have hIH := ih (x.i + x.size) (x.j + x.size) hrest
    have hendL := endL_ge (i := x.i + x.size) (j := x.j + x.size) hrest
    have hendR := endR_ge (i := x.i + x.size) (j := x.j + x.size) hrest
    unfold opcodes_go
    dsimp only
    constructor
    · rw [List.map_append, List.map_append, List.flatten_append, List.flatten_append,
        hIH.1, pre_left_concat a i j x hix, eq_left_concat a x, endL]
      rw [pySliceN_append a hix (by omega : x.i ≤ x.i + x.size)]
      exact pySliceN_append a (by omega) hendL
    · rw [List.map_append, List.map_append, List.flatten_append, List.flatten_append,
        hIH.2, pre_right_concat b i j x hjx, eq_right_concat b x, endR]
      rw [pySliceN_append b hjx (by omega : x.j ≤ x.j + x.size)]
      exact pySliceN_append b (by omega) hendR

/-- The matching blocks of any `SequenceMatcher` form a staircase chain
    from the origin, ending exactly at `(len(a), len(b))`. -/
theorem get_matching_blocks_chain (sm : SeqMatcher) :
    BlockChain 0 0 (get_matching_blocks sm) := by
  have hinv0 : QInv ⟨0, sm.a.length, 0, sm.b.length⟩
      [⟨0, sm.a.length, 0, sm.b.length⟩] [] := by
    refine ⟨?_, ?_, ?_, ?_, ?_⟩
    · intro w hw
      have : w = ⟨0, sm.a.length, 0, sm.b.length⟩ := by simpa using hw
      subst this
      exact ⟨le_refl _, le_refl _, le_refl _, le_refl _⟩
    · intro x hx; simp at hx
    · exact List.pairwise_singleton _ _
    · exact List.Pairwise.nil
    · intro w _ x hx; simp at hx
  have hspec := process_queue_spec sm ⟨0, sm.a.length, 0, sm.b.length⟩
    (2 * stack_size [⟨0, sm.a.length, 0, sm.b.length⟩] +
      [(⟨0, sm.a.length, 0, sm.b.length⟩ : Window)].length)
    [⟨0, sm.a.length, 0, sm.b.length⟩] [] (le_refl _) hinv0
  obtain ⟨hmem, hpair⟩ := hspec
  set blocks := process_queue sm [⟨0, sm.a.length, 0, sm.b.length⟩] [] with hblocks
  have hperm := sort_mt_perm blocks
  have hsortmem : ∀ x ∈ sort_mt blocks, wsub x.rect ⟨0, sm.a.length, 0, sm.b.length⟩ ∧
      1 ≤ x.size := fun x hx => hmem x (hperm.mem_iff.mp hx)
  have hsortpair : (sort_mt blocks).Pairwise (fun x y => wcomp x.rect y.rect) :=
    (hperm.pairwise_iff (fun h => wcomp_symm h)).mpr hpair
  have hstep : (sort_mt blocks).Pairwise mt_step :=
    sorted_comp_step (fun x hx => (hsortmem x hx).2) hsortpair (sort_mt_sorted blocks)
  have hpair0 : List.Pairwise mt_step (⟨0, 0, 0⟩ :: sort_mt blocks) := by
    rw [List.pairwise_cons]
    exact ⟨fun y _ => ⟨by simp, by simp⟩, hstep⟩
  have hbounds : ∀ x ∈ sort_mt blocks,
      x.i + x.size ≤ sm.a.length ∧ x.j + x.size ≤ sm.b.length := by
    intro x hx
    have := (hsortmem x hx).1
    unfold wsub MatchTriple.rect at this
    exact ⟨this.2.1, this.2.2.2⟩
  exact non_adjacent_chain sm.a.length sm.b.length (sort_mt blocks) 0 0 0 hpair0
    hbounds (by omega) (by omega)

/-- Main tiling property of `get_opcodes`: the left spans concatenate to
    `a` and the right spans concatenate to `b`. -/
theorem get_opcodes_tiling (sm : SeqMatcher) :
    ((get_opcodes sm).map (fun op => pySliceN sm.a op.i1 op.i2)).flatten = sm.a ∧
      ((get_opcodes sm).map (fun op => pySliceN sm.b op.j1 op.j2)).flatten = sm.b := by
  have hchain := get_matching_blocks_chain sm
  have htile := opcodes_tile sm.a sm.b (get_matching_blocks sm) 0 0 hchain
  unfold get_opcodes
  constructor
  · rw [htile.1]
    unfold get_matching_blocks
    rw [endL_last]
    simpa using pySliceN_full sm.a
  · rw [htile.2]
    unfold get_matching_blocks
    rw [endR_last]
    simpa using pySliceN_full sm.b

/-! ### `graph_builder.py`

The heading path resolver.  `Element.visited` becomes an explicit list of
visited positions; the recursion of `find_larger_neighbours` and
`find_paths` carries a budget of remaining stack frames, one unit per
nested call, so that `none` models Python's `RecursionError` and the
budget needed is exactly the recursion depth. -/

/-- A decimal digit character. -/
def digit_char (d : ℕ) : Char :=
  match d with
  | 0 => '0' | 1 => '1' | 2 => '2' | 3 => '3' | 4 => '4'
  | 5 => '5' | 6 => '6' | 7 => '7' | 8 => '8' | _ => '9'

/-- Decimal numeral of a natural number (same characters as `str(n)`). -/
def nat_dig_str (n : ℕ) : PyStr :=
  if h : n < 10 then [digit_char n]
  else nat_dig_str (n / 10) ++ [digit_char (n % 10)]
  termination_by n
  decreasing_by exact Nat.div_lt_self (by omega) (by omega)

/-- Value of a digit string. -/
def digits_val (l : List Char) : ℕ :=
  l.foldl (fun acc c => 10 * acc + (c.toNat - 48)) 0

/-- The body of a Python integer literal: digits with single underscores
    strictly between digits. -/
def int_body_ok (l : List Char) : Bool :=
  !l.isEmpty && (l.headD '0').isDigit && (l.getLastD '0').isDigit &&
    l.all (fun c => c.isDigit || c = '_') &&
    (l.zip l.tail).all (fun p => !(p.1 = '_' && p.2 = '_'))

/-- `int(item)` with the `except ValueError: … 0` fallback of
    `Element.compare_fct`: strip whitespace, optional sign, digits. -/
def to_int_or_zero (s : PyStr) : Int :=
  let t := pyStrip s
  match t with
  | '+' :: rest => if int_body_ok rest then (digits_val (rest.filter (· ≠ '_')) : Int) else 0
  | '-' :: rest => if int_body_ok rest then -(digits_val (rest.filter (· ≠ '_')) : Int) else 0
  | _ => if int_body_ok t then (digits_val (t.filter (· ≠ '_')) : Int) else 0

/-- `Element.compare_fct`: split on `-`, each part on `.`, parse numbers
    (non-numeric tokens become `0`), giving the nested comparison key. -/
def compare_fct (x : PyStr) : List (List Int) :=
  (pySplitOn '-' x).map (fun sub => (pySplitOn '.' sub).map to_int_or_zero)

/-- Python's lexicographic `<` on integer tuples. -/
def int_list_lt : List Int → List Int → Bool
  | [], [] => false
  | [], _ :: _ => true
  | _ :: _, [] => false
  | a :: as, b :: bs =>
    if a < b then true else if b < a then false else int_list_lt as bs

/-- Python's lexicographic `<` on tuples of integer tuples. -/
def nested_lt : List (List Int) → List (List Int) → Bool
  | [], [] => false
  | [], _ :: _ => true
  | _ :: _, [] => false
  | a :: as, b :: bs =>
    if int_list_lt a b then true else if int_list_lt b a then false else nested_lt as bs

/-- `Element.__lt__`: compare parsed keys. -/
def value_lt (x y : PyStr) : Bool := nested_lt (compare_fct x) (compare_fct y)

/-- `Element.__gt__`: compare parsed keys the other way round. -/
def value_gt (x y : PyStr) : Bool := nested_lt (compare_fct y) (compare_fct x)

/-- `Element` (its `visited` flag is carried separately, its metadata is
    never read by the resolver). -/
structure Elt where
  position : ℕ
  value : PyStr
  deriving DecidableEq, Repr, Inhabited

/-- `GraphBuilder.initialize_sequence`: elements are
    numbered by their index. -/
def init_sequence (vals : List PyStr) : List Elt :=
  vals.enum.map (fun p => ⟨p.1, p.2⟩)

/-- The heading graph: an insertion-ordered dict from elements to their
    staircase successors. -/
abbrev HGraph := List (Elt × List Elt)

/-- Python's `dict | dict`: left keys keep their position but take the
    right value on collision; fresh right keys are appended. -/
def dict_merge (g1 g2 : HGraph) : HGraph :=
  g1.map (fun p => (p.1, alGet g2 p.1 p.2)) ++
    g2.filter (fun q => !g1.any (fun p => p.1 = q.1))

/-- `GraphBuilder.find_larger`: index of the first element after
    `start_pos` whose value is strictly larger. -/
def find_larger (element : Elt) (subsequence : List Elt) (start_pos : ℕ) : Option ℕ :=
  (subsequence.enum.find? (fun p =>
    value_gt p.2.value element.value && decide (start_pos ≤ p.1))).map (fun p => p.1)

/-- `GraphBuilder.find_smaller`: index of the first element after
    `start_pos` whose value lies strictly between the root's and the
    current neighbour's. -/
def find_smaller (root_element element : Elt) (subsequence : List Elt)
    (start_pos : ℕ) : Option ℕ :=
  (subsequence.enum.find? (fun p =>
    value_lt root_element.value p.2.value && value_lt p.2.value element.value &&
      decide (start_pos ≤ p.1))).map (fun p => p.1)

theorem find_smaller_ge {root element : Elt} {seq : List Elt} {start_pos i : ℕ}
    (h : find_smaller root element seq start_pos = some i) : start_pos ≤ i := by
  unfold find_smaller at h
  cases hf : seq.enum.find? (fun p =>
      value_lt root.value p.2.value && value_lt p.2.value element.value &&
        decide (start_pos ≤ p.1)) with
  | none => rw [hf] at h; exact Option.noConfusion h
  | some p =>
    rw [hf] at h
    have hp := List.find?_some hf
    simp only [Bool.and_eq_true, decide_eq_true_eq] at hp
    have : p.1 = i := by simpa using h
    omega

/-- The body of the `while current_position < len(subsequence)` staircase
    loop inside `find_larger_neighbours`, accumulating the neighbour list.
    Each iteration moves `current_position` past the index found by
    `find_smaller`, so the remaining sequence length bounds the remaining
    iterations: `gas` starts at that bound and never reaches `0` before
    the loop condition fails. -/
def staircase_go (seq : List Elt) (element : Elt) :
    ℕ → Elt → ℕ → List Elt → List Elt
  | 0, _, _, acc => acc
  | gas + 1, current_neighbour, current_position, acc =>
    if current_position < seq.length then
      match find_smaller element current_neighbour seq current_position with
      | none => acc
      | some pos =>
        staircase_go seq element gas (seq.getD pos default) (pos + 1)
          (acc ++ [seq.getD pos default])
    else acc

/-- The staircase loop of `find_larger_neighbours`. -/
def staircase (seq : List Elt) (element current_neighbour : Elt)
    (current_position : ℕ) (acc : List Elt) : List Elt :=
  staircase_go seq element (seq.length - current_position) current_neighbour
    current_position acc

/-- `GraphBuilder.find_larger_neighbours`, with an explicit recursion
    budget: `none` is a `RecursionError`, and the `copy()` of the
    sequence shares the elements, so the visited set is global. -/
def find_larger_neighbours (seq : List Elt) :
    ℕ → Elt → List ℕ → Option (HGraph × List ℕ)
  | 0, _, _ => none
  | fuel + 1, element, visited =>
    if seq.length = 0 ∨ element.position ∈ visited then some ([], visited)
    else
      let visited1 := element.position :: visited
      match find_larger element seq (element.position + 1) with
      | none => some ([], visited1)
      | some pos =>
        let current := seq.getD pos default
        let neighbours := staircase seq element current (pos + 1) [current]
        neighbours.foldlM
          (fun (acc : HGraph × List ℕ) nb =>
            (find_larger_neighbours seq fuel nb acc.2).map
              (fun r => (dict_merge acc.1 r.1, r.2)))
          ([(element, neighbours)], visited1)

/-- `GraphBuilder.make_full_graph` over an already initialised sequence:
    returns the graph and the root elements; each loop iteration starts a
    fresh recursion with the full budget, as each Python call starts at
    the same stack depth. -/
def make_full_graph (seq : List Elt) (fuel : ℕ) : Option (HGraph × List Elt) :=
  (seq.foldlM
    (fun (acc : HGraph × List Elt × List ℕ) element =>
      (find_larger_neighbours seq fuel element acc.2.2).map
        (fun r =>
          if r.1 ≠ [] then (dict_merge acc.1 r.1, acc.2.1 ++ [element], r.2)
          else (acc.1, acc.2.1, r.2)))
    ([], [], [])).map (fun acc => (acc.1, acc.2.1))

/-- `GraphBuilder.find_paths` with the same recursion budget. -/
def find_paths (graph : HGraph) : ℕ → Elt → List Elt → Option (List (List Elt))
  | 0, _, _ => none
  | fuel + 1, start, path =>
    let path1 := path ++ [start]
    match graph.find? (fun p => p.1 = start) with
    | none => some [path1]
    | some entry =>
      if entry.2 = [] then some [path1]
      else
        entry.2.foldlM
          (fun (acc : List (List Elt)) nb =>
            (find_paths graph fuel nb path1).map (fun ps => acc ++ ps))
          []

/-- `best_path[-1].position - best_path[0].position`; the paths handled
    here are always non-empty. -/
def path_range (p : List Elt) : Int :=
  ((p.getLastD default).position : Int) - ((p.headD default).position : Int)

/-- The selection loop of `find_best_path`.  `best_range` is initialised
    from the first path and — exactly as in the source — never updated
    afterwards, in either branch. -/
def fbp_go (best : List Elt) (best_range : Int) : List (List Elt) → List Elt
  | [] => best
  | p :: rest =>
    if p.length > best.length then fbp_go p best_range rest
    else if p.length = best.length ∧ path_range p < best_range then fbp_go p best_range rest
    else fbp_go best best_range rest

/-- `GraphBuilder.find_best_path`. -/
def find_best_path : List (List Elt) → List Elt
  | [] => []
  | best :: rest => fbp_go best (path_range best) rest

/-- `GraphBuilder.find_best_path_in_sequence` over a built graph. -/
def find_best_path_in_sequence (graph : HGraph) (roots : List Elt) (fuel : ℕ) :
    Option (List Elt) :=
  (roots.foldlM
    (fun (acc : List (List Elt)) root =>
      (find_paths graph fuel root []).map (fun ps => acc ++ [find_best_path ps]))
    []).map find_best_path

/-- The whole resolver: `GraphBuilder(sequence).find_best_path_in_sequence()`
    for a sequence of heading values. -/
def graph_builder_best_path (vals : List PyStr) (fuel : ℕ) : Option (List Elt) := do
  let seq := init_sequence vals
  let (graph, roots) ← make_full_graph seq fuel
  find_best_path_in_sequence graph roots fuel

/-! ### `utils.py`: sentence recognition and splitting -/

theorem pyFindFrom_bounds {s : PyStr} {c : Char} {st i : ℕ}
    (h : pyFindFrom s c st = some i) : st ≤ i ∧ i < s.length := by
  unfold pyFindFrom at h
  have hmem := List.mem_of_find?_eq_some h
  have hp := List.find?_some h
  simp only [Bool.and_eq_true, decide_eq_true_eq] at hp
  simp only [List.mem_range] at hmem
  exact ⟨hp.1, hmem⟩

/-- The `while pos != -1` loop of `recognize_first_sentence`, entered with
    the previous position.  When `find` returns `-1` the remaining body
    can neither `return` nor loop again, so the function falls through to
    `return text`.  `rfind`/`find` results of `-1` flow into slice bounds:
    `pos_space_before + 1` becomes `0` and a `-1` slice end drops the last
    character, exactly as in Python. -/
def rfs_go (text : PyStr) : ℕ → ℕ → PyStr
  | 0, _ => text
  | gas + 1, pos =>
    match pyFindFrom text '.' (pos + 1) with
    | none => text
    | some p =>
      let psb := pyRfindBefore text ' ' p
      let psa := pyFindFrom text ' ' (p + 1)
      let seg1 := pySliceN text ((psb.map (· + 1)).getD 0) p
      let seg2 := match psa with
        | none => pySlice text ((p : Int) + 1) (-1)
        | some q => pySliceN text (p + 1) q
      if pyIsNumeric seg1 || pyIsNumeric seg2 then rfs_go text gas p
      else if 2 < p ∧ text.getD (p - 2) ' ' ≠ ' ' ∧ text.getD (p - 2) ' ' ≠ '.' ∧
          1 < (pySplitWs (pySliceN text 0 p)).length then
        pySliceN text 0 p
      else rfs_go text gas p

/-- `recognize_first_sentence(text)`: the loop advances the position to
    each successive `.`, so the text length bounds the iterations and the
    `gas` never runs out before `find` fails. -/
def recognize_first_sentence (text : PyStr) : PyStr := rfs_go text text.length 0

/-- The inner `while text[pos:pos+1] == ' '` skip of
    `split_into_sentences`; the position grows by one per iteration, so
    the remaining length bounds the iterations. -/
def skip_spaces_go (text : PyStr) : ℕ → ℕ → ℕ
  | 0, pos => pos
  | gas + 1, pos =>
    if pos < text.length then
      if text.getD pos '?' = ' ' then skip_spaces_go text gas (pos + 1) else pos
    else pos

/-- The space-skipping loop entered at `pos`. -/
def skip_spaces (text : PyStr) (pos : ℕ) : ℕ :=
  skip_spaces_go text (text.length - pos) pos

/-- The `while pos < len(text)` loop of `utils.split_into_sentences`.
    This is the version in `utils.py`, which returns only the sentence
    list (its callers and tests expect a second component of sentence
    start positions).  The position advances past the recognised sentence,
    which is non-empty while the position is in range, so the text length
    bounds the iterations and the `gas` never runs out before the loop
    condition fails. -/
def sis_go (text : PyStr) : ℕ → ℕ → List PyStr → List PyStr
  | 0, _, acc => acc
  | gas + 1, pos, acc =>
    if pos < text.length then
      let pos1 := skip_spaces text pos
      let sentence := recognize_first_sentence (text.drop pos1)
      let pos2 := pos1 + sentence.length
      if pySliceN text pos2 (pos2 + 1) = ['.'] then
        sis_go text gas (pos2 + 1) (acc ++ [pyStrip sentence ++ ['.']])
      else sis_go text gas pos2 (acc ++ [sentence])
    else acc

/-- `split_into_sentences(text)` as defined in `utils.py`. -/
def split_into_sentences (text : PyStr) : List PyStr :=
  sis_go text (text.length + 1) 0 []

/-! ### Python runtime helpers used by the matcher -/

/-- `min(list)`. -/
def pyMinNat : List ℕ → Except PyErr ℕ
  | [] => throw (.valueError "min() arg is an empty sequence")
  | x :: xs => pure (xs.foldl min x)

/-- `max(list)`. -/
def pyMaxNat : List ℕ → Except PyErr ℕ
  | [] => throw (.valueError "max() arg is an empty sequence")
  | x :: xs => pure (xs.foldl max x)

/-- `list.remove(x)`: drop the first occurrence, error when absent. -/
def pyRemove (l : List ℕ) (x : ℕ) : Except PyErr (List ℕ) :=
  if x ∈ l then pure (l.erase x) else
    throw (.valueError "list.remove(x): x not in list")

/-- Tuple unpacking `a, b = l`. -/
def pyUnpack2 (l : List α) : Except PyErr (α × α) :=
  match l with
  | [a, b] => pure (a, b)
  | [] => throw (.valueError "not enough values to unpack (expected 2, got 0)")
  | [_] => throw (.valueError "not enough values to unpack (expected 2, got 1)")
  | _ => throw (.valueError "too many values to unpack (expected 2)")

/-! ### `get_heading_info` and the heading pattern

`HEADING_PATTERN = ^((?:[1-9]{1}\d*\.*)+\d*)\s*([A-Z0-9][A-Za-z]+.*)`.
The first group is recognised by a subset construction over the states
"inside a block's digits", "inside its dots" and "inside the trailing
digits"; the match is greedy, taking the longest numbering prefix whose
remainder still matches the rest of the pattern. -/

/-- Subset run of the group-1 automaton. -/
def g1_run (cs : List Char) (a p t : Bool) : Bool :=
  match cs with
  | [] => a || p || t
  | c :: rest =>
    g1_run rest
      ((a && c.isDigit) || (p && decide ('1' ≤ c ∧ c ≤ '9')))
      ((a || p) && decide (c = '.'))
      ((t || p) && c.isDigit)

/-- Whether a string is matched entirely by `(?:[1-9]{1}\d*\.*)+\d*`. -/
def g1_ok : List Char → Bool
  | [] => false
  | c :: rest => decide ('1' ≤ c ∧ c ≤ '9') && g1_run rest true false false

/-- An ASCII letter (`[A-Za-z]`). -/
def is_ascii_alpha (c : Char) : Bool :=
  (decide ('A' ≤ c ∧ c ≤ 'Z')) || (decide ('a' ≤ c ∧ c ≤ 'z'))

/-- Try to match `\s*([A-Z0-9][A-Za-z]+.*)` against the remainder,
    returning the second capture group. -/
def g2_parse (rs : PyStr) : Option PyStr :=
  let rs1 := rs.dropWhile isPySpace
  match rs1 with
  | [] => none
  | c :: rest2 =>
    if ((decide ('A' ≤ c ∧ c ≤ 'Z')) || c.isDigit) &&
        is_ascii_alpha (rest2.headD ' ') then
      some (c :: rest2.takeWhile (fun d => d ≠ '\n'))
    else none

/-- `HEADING_PATTERN.match(text)`: the two capture groups, if any. -/
def heading_match (text : PyStr) : Option (PyStr × PyStr) :=
  ((List.range (text.length + 1)).reverse.filterMap (fun i =>
    if i = 0 then none
    else if g1_ok (text.take i) then
      (g2_parse (text.drop i)).map (fun g2 => (text.take i, g2))
    else none)).head?

/-- `get_heading_info(text)`: heading number and the first sentence of
    the heading text, or two empty strings. -/
def get_heading_info (text : PyStr) : PyStr × PyStr :=
  match heading_match text with
  | some (head_number, head_text) => (head_number, recognize_first_sentence head_text)
  | none => ([], [])

/-! ### `text_matcher.py`: reports and closest-match search -/

/-- A report value: either a Python string (HTML mode or the literal `""`
    of removed/new records) or the structured tag list of JSON mode. -/
inductive Report where
  | str (s : PyStr)
  | tags (l : List (String × PyStr))
  deriving DecidableEq, Repr

/-- `TextMatcher._get_report` specialised over a formatter. -/
def get_report (text_left text_right : PyStr)
    (formatter : String → PyStr → PyStr → Bool → α × α × Bool) :
    List α × List α × Bool :=
  (get_edit_operations text_left text_right (some (fun c => c = ' '))).foldl
    (fun (acc : List α × List α × Bool) op =>
      let sub_left := pySliceN text_left op.i1 op.i2
      let sub_right := pySliceN text_right op.j1 op.j2
      if (pyStrip sub_left).isEmpty && (pyStrip sub_right).isEmpty then acc
      else
        let sub_changed := is_changed op.tag sub_left sub_right
        let tag := if op.tag ≠ "equal" ∧ sub_changed = false then "equal" else op.tag
        let r := formatter tag sub_left sub_right sub_changed
        (acc.1 ++ [r.1], acc.2.1 ++ [r.2.1], acc.2.2 || r.2.2))
    ([], [], false)

/-- `TextMatcher._html_formatter`. -/
def html_formatter (tag : String) (sub_left sub_right : PyStr) (sub_changed : Bool) :
    PyStr × PyStr × Bool :=
  if tag = "delete" then
    ("<span style=\"color: #FF3131;text-decoration: line-through;\">".toList ++
      sub_left ++ "</span>".toList, sub_right, sub_changed)
  else if tag = "replace" then
    ("<span style=\"color: #FFBF00;\">".toList ++ sub_left ++ "</span>".toList,
      "<span style=\"color: #FFBF00;\">".toList ++ sub_right ++ "</span>".toList,
      sub_changed)
  else if tag = "insert" then
    (sub_left, "<span style=\"color: #50C878;\">".toList ++ sub_right ++ "</span>".toList,
      sub_changed)
  else (sub_left, sub_right, sub_changed)

/-- `TextMatcher._json_formatter`. -/
def json_formatter (tag : String) (sub_left sub_right : PyStr) (sub_changed : Bool) :
    (String × PyStr) × (String × PyStr) × Bool :=
  ((tag, sub_left), (tag, sub_right), sub_changed)

/-- `TextMatcher.get_match_html_report`. -/
def get_match_html_report (text_left text_right : PyStr) : PyStr × PyStr × Bool :=
  let r := get_report text_left text_right html_formatter
  (r.1.flatten, r.2.1.flatten, r.2.2)

/-- `TextMatcher.get_match_json_report`. -/
def get_match_json_report (text_left text_right : PyStr) :
    List (String × PyStr) × List (String × PyStr) × Bool :=
  get_report text_left text_right json_formatter

/-- `TextMatcher.get_match_tags`. -/
def get_match_tags (matched_texts_left matched_texts_right : List Paragraph) :
    List (List Opcode) :=
  List.zipWith (fun l r => get_edit_operations l.text r.text)
    matched_texts_left matched_texts_right

/-- The `while current_position not in match_positions_set` loop of
    `find_closest_match`; `step` is non-zero here, which bounds the walk
    by the distance to the limit position. -/
def fcm_loop (match_positions : List ℕ) (limit : ℕ) (step : Int) (hstep : step ≠ 0)
    (current : Int) : Int :=
  if (match_positions.map (fun n => (n : Int))).contains current then
    ((match_positions.map (fun n => (n : Int))).indexOf current : Int)
  else
    let next := current + step
    if (step < 0 ∧ next < (limit : Int)) ∨ (0 < step ∧ (limit : Int) < next) then -1
    else fcm_loop match_positions limit step hstep next
  termination_by (current - (limit : Int)).natAbs
  decreasing_by
    rename_i hguard
    rw [not_or] at hguard
    obtain ⟨hg1, hg2⟩ := hguard
    rcases Int.lt_or_lt_of_ne hstep with hneg | hpos
    · have : ¬ current + step < (limit : Int) := by
        intro hc; exact hg1 ⟨hneg, hc⟩
      omega
    · have : ¬ (limit : Int) < current + step := by
        intro hc; exact hg2 ⟨hpos, hc⟩
      omega

/-- `TextMatcher.find_closest_match(match_positions, text_position, step)`:
    `-1` when no match is found; `min`/`max` of an empty position list
    raises `ValueError`. -/
def find_closest_match (match_positions : List ℕ) (text_position : ℕ) (step : Int) :
    Except PyErr Int :=
  if hstep : step = 0 then pure (-1)
  else do
    let limit ← if step < 0 then pyMinNat match_positions else pyMaxNat match_positions
    pure (fcm_loop match_positions limit step hstep text_position)

/-! ### `text_matcher.py`: the reconciliation pipeline

`TextMatcher` mutates `self.texts_left` / `self.texts_right`; the state is
made explicit, together with a ghost `trace` of the executed phases that
is only ever appended to. -/

/-- Pipeline phases recorded in the ghost trace. -/
inductive PhaseTag where
  | split
  | merge
  | finalMatch
  deriving DecidableEq, Repr

/-- The state of a `TextMatcher` instance. -/
structure MState where
  texts_left : List Paragraph
  texts_right : List Paragraph
  ratio_threshold : ℚ
  length_threshold : ℚ
  trace : List PhaseTag := []
  deriving DecidableEq, Repr

/-- The `TextMatcher` constructor: the ratio threshold is scaled by 100. -/
def TextMatcher_init (texts_left texts_right : List Paragraph)
    (ratio_threshold length_threshold : ℚ) : MState :=
  { texts_left := texts_left, texts_right := texts_right,
    ratio_threshold := ratio_threshold * 100,
    length_threshold := length_threshold, trace := [] }

/-- `TextMatcher._update_segment`. -/
def update_segment (texts : List Paragraph) (pos : ℕ) (new_segments : List Paragraph) :
    List Paragraph :=
  texts.take pos ++ new_segments ++ texts.drop (pos + 1)

/-- `TextMatcher.split_combined_text`.  Its first statement unpacks two
    values from `split_into_sentences`, which returns a plain sentence
    list; with exactly two sentences the unpacking succeeds but binds
    `split_pos_left` to a string, so the following
    `split_pos_left.append(...)` raises `AttributeError`.  Every call
    therefore raises, and the rest of the Python body is unreachable. -/
def split_combined_text (text_left text_right : Paragraph) (opcodes : List Opcode)
    (length_threshold : ℚ) : Except PyErr (List Paragraph × List Paragraph) := do
  let _ ← pyUnpack2 (split_into_sentences text_left.text)
  let _ ← pyUnpack2 (split_into_sentences text_right.text)
  throw (.attributeError "str object has no attribute append")

/-- The body of `TextMatcher.update_texts_combined` as a function of the
    fields it reads, returning the new text lists. -/
def update_texts_combined_core (ratio_threshold length_threshold : ℚ)
    (texts_left texts_right : List Paragraph) :
    Except PyErr (List Paragraph × List Paragraph) := do
  let om := compute_optimal_matches texts_left texts_right ratio_threshold
  let positions_left := om.map (fun m => m.pos_left)
  let matched_texts_left := om.map (fun m => m.para_left)
  let positions_right := om.map (fun m => m.pos_right)
  let matched_texts_right := om.map (fun m => m.para_right)
  let match_tags := get_match_tags matched_texts_left matched_texts_right
  let st ← match_tags.enum.reverse.foldlM
    (fun (st : List Paragraph × List Paragraph) (p : ℕ × List Opcode) => do
      let pos := p.1
      let r ← split_combined_text
        (matched_texts_left.getD pos default) (matched_texts_right.getD pos default)
        p.2 length_threshold
      pure (update_segment st.1 (positions_left.getD pos 0) r.1,
            update_segment st.2 (positions_right.getD pos 0) r.2))
    (texts_left, texts_right)
  pure (st.1.filter (fun t => !(pyStrip t.text).isEmpty),
        st.2.filter (fun t => !(pyStrip t.text).isEmpty))

/-- `TextMatcher.update_texts_combined` (Phase A, the split phase). -/
def update_texts_combined (s : MState) : Except PyErr MState := do
  let r ← update_texts_combined_core s.ratio_threshold s.length_threshold
    s.texts_left s.texts_right
  pure { s with texts_left := r.1, texts_right := r.2,
                trace := s.trace ++ [PhaseTag.split] }

/-- Which side of a match `_attempt_merge` merges into
    (`merge_index=1/opposing_index=3` is the left side). -/
inductive MergeSide where
  | left
  | right
  deriving DecidableEq, Repr

/-- `TextMatcher._attempt_merge`.  On success the neighbour paragraph is
    mutated in place; since that object is aliased by both
    `optimal_matches` and the text list, the result returns the updated
    match list together with the merge position and the new paragraph so
    the caller can reflect the mutation in the text list. -/
def attempt_merge (idx : ℕ) (text_obj : Paragraph) (match_positions : List ℕ)
    (optimal_matches : List Match5) (side : MergeSide) :
    Except PyErr (List Match5 × Option (ℕ × Paragraph)) := do
  let best ← [(-1 : Int), 1].foldlM
    (fun (best : ℚ × Option (ℕ × Int)) step => do
      let neighbor_idx ← find_closest_match match_positions idx step
      if neighbor_idx = -1 then pure best
      else
        let neighbor_match := optimal_matches.getD neighbor_idx.toNat default
        let neighbour_para := match side with
          | .left => neighbor_match.para_left
          | .right => neighbor_match.para_right
        let neighbour_para_oppose := match side with
          | .left => neighbor_match.para_right
          | .right => neighbor_match.para_left
        let merged_text := if step = -1 then
            neighbour_para.text ++ (' ' :: text_obj.text)
          else text_obj.text ++ (' ' :: neighbour_para.text)
        let updated_ratio := fuzz_ratio merged_text neighbour_para_oppose.text
        let diff := updated_ratio - neighbor_match.score
        if diff > best.1 then pure (diff, some (neighbor_idx.toNat, step))
        else pure best)
    ((0 : ℚ), none)
  match best.2 with
  | none => pure (optimal_matches, none)
  | some (neighbor_idx, step) =>
    if best.1 > 0 then
      let neighbor_match := optimal_matches.getD neighbor_idx default
      let upd := fun (p : Paragraph) =>
        if step = -1 then { p with text := p.text ++ (' ' :: text_obj.text) }
        else { p with text := text_obj.text ++ (' ' :: p.text) }
      match side with
      | .left =>
        let np := upd neighbor_match.para_left
        pure (optimal_matches.set neighbor_idx { neighbor_match with para_left := np },
              some (neighbor_match.pos_left, np))
      | .right =>
        let np := upd neighbor_match.para_right
        pure (optimal_matches.set neighbor_idx { neighbor_match with para_right := np },
              some (neighbor_match.pos_right, np))
    else pure (optimal_matches, none)

/-- Pop the listed indices (Python pops them in descending order, which
    deletes exactly the elements at those positions). -/
def pop_indices (texts : List Paragraph) (idxs : List ℕ) : List Paragraph :=
  (texts.enum.filter (fun p => !idxs.contains p.1)).map (fun p => p.2)

/-- The body of `TextMatcher.update_try_merge`. -/
def update_try_merge_core (ratio_threshold : ℚ)
    (texts_left texts_right : List Paragraph) :
    Except PyErr (List Paragraph × List Paragraph) := do
  let om := compute_optimal_matches texts_left texts_right ratio_threshold
  let match_positions_left := om.map (fun m => m.pos_left)
  let match_positions_right := om.map (fun m => m.pos_right)
  let idx0 ← om.foldlM
    (fun (st : List ℕ × List ℕ) m => do
      let a ← pyRemove st.1 m.pos_left
      let b ← pyRemove st.2 m.pos_right
      pure (a, b))
    (List.range texts_left.length, List.range texts_right.length)
  -- left-side merging; a successful merge mutates the aliased paragraph
  let stL ← idx0.1.foldlM
    (fun (st : List Match5 × List Paragraph × List ℕ) idx => do
      let text_left := st.2.1.getD idx default
      let r ← attempt_merge idx text_left match_positions_left st.1 .left
      match r.2 with
      | some (tpos, np) =>
        pure (r.1, st.2.1.set tpos np, st.2.2 ++ [idx])
      | none => pure (r.1, st.2.1, st.2.2))
    (om, texts_left, [])
  let texts_left1 := pop_indices stL.2.1 stL.2.2
  -- right-side merging, symmetric
  let stR ← idx0.2.foldlM
    (fun (st : List Match5 × List Paragraph × List ℕ) idx => do
      let text_right := st.2.1.getD idx default
      let r ← attempt_merge idx text_right match_positions_right st.1 .right
      match r.2 with
      | some (tpos, np) =>
        pure (r.1, st.2.1.set tpos np, st.2.2 ++ [idx])
      | none => pure (r.1, st.2.1, st.2.2))
    (stL.1, texts_right, [])
  let texts_right1 := pop_indices stR.2.1 stR.2.2
  pure (texts_left1, texts_right1)

/-- `TextMatcher.update_try_merge` (Phase B, the merge phase). -/
def update_try_merge (s : MState) : Except PyErr MState := do
  let r ← update_try_merge_core s.ratio_threshold s.texts_left s.texts_right
  pure { s with texts_left := r.1, texts_right := r.2,
                trace := s.trace ++ [PhaseTag.merge] }

/-- Python's `round(x, 4)` (round half to even). -/
def py_round4 (x : ℚ) : ℚ :=
  let y := x * 10000
  let fl : Int := ⌊y⌋
  if y - fl < 1/2 then (fl : ℚ) / 10000
  else if y - fl > 1/2 then ((fl : ℚ) + 1) / 10000
  else (if fl % 2 = 0 then (fl : ℚ) else (fl : ℚ) + 1) / 10000

/-- Report mode: `"html"` or the structured JSON mode selected by any
    other mode string. -/
inductive Mode where
  | html
  | json
  deriving DecidableEq, Repr

/-- The `report_method` selected in `generate_comparison`. -/
def report_of (mode : Mode) (l r : PyStr) : Report × Report × Bool :=
  match mode with
  | .html =>
    let r0 := get_match_html_report l r
    (.str r0.1, .str r0.2.1, r0.2.2)
  | .json =>
    let r0 := get_match_json_report l r
    (.tags r0.1, .tags r0.2.1, r0.2.2)

/-- One record of the comparison object built by `generate_comparison`. -/
structure CompItem where
  ratio : ℚ
  type : String
  text_left_id : PyStr
  text_left : PyStr
  text_right_id : PyStr
  text_right : PyStr
  text_left_report : Report
  text_right_report : Report
  position : ℕ
  position_secondary : ℕ
  heading_number_left : PyStr
  heading_text_left : PyStr
  heading_number_right : PyStr
  heading_text_right : PyStr
  deriving DecidableEq, Repr

/-- The final matching pass of `generate_comparison` and the assembly of
    matched, removed and new records, over the reconciled state. -/
def generate_comparison_items (s3 : MState) (mode : Mode) :
    Except PyErr (List CompItem) := do
  let om := compute_optimal_matches s3.texts_left s3.texts_right s3.ratio_threshold
  let stM ← om.foldlM
    (fun (st : List CompItem × List ℕ × List ℕ) m => do
      let hL := get_heading_info m.para_left.text
      let hR := get_heading_info m.para_right.text
      let rep := report_of mode m.para_left.text m.para_right.text
      let item : CompItem := {
        ratio := if rep.2.2 then py_round4 (m.score / 100) else 1,
        type := if rep.2.2 then "changed" else "same",
        text_left_id := m.para_left.id, text_left := m.para_left.text,
        text_right_id := m.para_right.id, text_right := m.para_right.text,
        text_left_report := rep.1, text_right_report := rep.2.1,
        position := m.pos_left, position_secondary := m.pos_right,
        heading_number_left := hL.1, heading_text_left := hL.2,
        heading_number_right := hR.1, heading_text_right := hR.2 }
      let tli ← pyRemove st.2.1 m.pos_left
      let tri ← pyRemove st.2.2 m.pos_right
      pure (st.1 ++ [item], tli, tri))
    ([], List.range s3.texts_left.length, List.range s3.texts_right.length)
  let removed := stM.2.1.map (fun idx =>
    let text_left := s3.texts_left.getD idx default
    let hL := get_heading_info text_left.text
    let rep := report_of mode text_left.text []
    ({
       ratio := 0, type := "removed",
       text_left_id := text_left.id, text_left := text_left.text,
       text_right_id := [], text_right := [],
       text_left_report := rep.1, text_right_report := .str [],
       position := idx, position_secondary := 0,
       heading_number_left := hL.1, heading_text_left := hL.2,
       heading_number_right := [], heading_text_right := [] } : CompItem))
  let match_positions_right := om.map (fun m => m.pos_right)
  let newItems ← stM.2.2.foldlM
    (fun (acc : List CompItem) idx => do
      let text_right := s3.texts_right.getD idx default
      let hR := get_heading_info text_right.text
      let rep := report_of mode [] text_right.text
      let closest ← if match_positions_right ≠ [] then
          find_closest_match match_positions_right idx (-1)
        else pure (-1)
      let pl_pr : ℕ × ℕ := if closest ≠ -1 then
          ((om.getD closest.toNat default).pos_left,
           (om.getD closest.toNat default).pos_right)
        else (0, 0)
      let item : CompItem := {
        ratio := 0, type := "new",
        text_left_id := [], text_left := [],
        text_right_id := text_right.id, text_right := text_right.text,
        text_left_report := .str [], text_right_report := rep.2.1,
        position := pl_pr.1, position_secondary := pl_pr.2,
        heading_number_left := [], heading_text_left := [],
        heading_number_right := hR.1, heading_text_right := hR.2 }
      pure (acc ++ [item]))
    []
  pure (stM.1 ++ removed ++ newItems)

/-- `TextMatcher.generate_comparison(mode)`: two split passes, the merge
    pass, then the final matching pass and record assembly; the returned
    state carries the ghost phase trace. -/
def generate_comparison (s : MState) (mode : Mode) :
    Except PyErr (List CompItem × MState) := do
  let s1 ← update_texts_combined s
  let s2 ← update_texts_combined s1
  let s3 ← update_try_merge s2
  let items ← generate_comparison_items s3 mode
  pure (items, { s3 with trace := s3.trace ++ [PhaseTag.finalMatch] })

/-! ### Properties of the assignment solver -/

/-- The first-maximiser fold: the result is drawn from the inputs and
    dominates all of them. -/
theorem argmax_fold_spec (f : α → ℚ) :
    ∀ (ys : List α) (b : α),
      (ys.foldl (fun b y => if f y > f b then y else b) b = b ∨
        ys.foldl (fun b y => if f y > f b then y else b) b ∈ ys) ∧
      f b ≤ f (ys.foldl (fun b y => if f y > f b then y else b) b) ∧
      ∀ y ∈ ys, f y ≤ f (ys.foldl (fun b y => if f y > f b then y else b) b) := by
  intro ys
  induction ys with
  | nil => intro b; exact ⟨Or.inl rfl, le_refl _, fun y hy => absurd hy (List.not_mem_nil y)⟩
  | cons z zs ih =>
    intro b
    simp only [List.foldl_cons]
    by_cases hz : f z > f b
    · rw [if_pos hz]
      obtain ⟨hmem, hb, hall⟩ := ih z
      refine ⟨?_, ?_, ?_⟩
      · rcases hmem with h | h
        · exact Or.inr (by rw [h]; exact List.mem_cons_self _ _)
        · exact Or.inr (List.mem_cons_of_mem _ h)
      · exact le_trans (le_of_lt hz) hb
      · intro y hy
        rcases List.mem_cons.mp hy with h | h
        · exact h ▸ hb
        · exact hall y h
    · rw [if_neg hz]
      obtain ⟨hmem, hb, hall⟩ := ih b
      refine ⟨?_, hb, ?_⟩
      · rcases hmem with h | h
        · exact Or.inl h
        · exact Or.inr (List.mem_cons_of_mem _ h)
      · intro y hy
        rcases List.mem_cons.mp hy with h | h
        · exact le_trans (h ▸ le_of_not_lt hz) hb
        · exact hall y h

/-- `argmax_by` on a non-empty list returns a maximising member. -/
theorem argmax_by_spec (f : α → ℚ) (x : α) (xs : List α) :
    ∃ c, argmax_by f (x :: xs) = some c ∧ c ∈ x :: xs ∧ ∀ y ∈ x :: xs, f y ≤ f c := by
  obtain ⟨hmem, hb, hall⟩ := argmax_fold_spec f xs x
  refine ⟨_, rfl, ?_, ?_⟩
  · rcases hmem with h | h
    · rw [h]; exact List.mem_cons_self _ _
    · exact List.mem_cons_of_mem _ h
  · intro y hy
    rcases List.mem_cons.mp hy with h | h
    · exact h ▸ hb
    · exact hall y h

theorem insert_by_row_perm (p : ℕ × ℕ) (l : List (ℕ × ℕ)) :
    (insert_by_row p l).Perm (p :: l) := by
  induction l with
  | nil => simp [insert_by_row]
  | cons q qs ih =>
    unfold insert_by_row
    split
    · exact List.Perm.refl _
    · exact (ih.cons q).trans (List.Perm.swap p q qs)

theorem sort_by_row_perm (l : List (ℕ × ℕ)) : (sort_by_row l).Perm l := by
  induction l with
  | nil => simp [sort_by_row]
  | cons q qs ih =>
    have : sort_by_row (q :: qs) = insert_by_row q (sort_by_row qs) := rfl
    rw [this]
    exact (insert_by_row_perm q (sort_by_row qs)).trans (ih.cons q)

/-- Membership characterisation of the injective-tuple enumeration. -/
theorem mem_injective_tuples :
    ∀ (k : ℕ) (avail : List ℕ), avail.Nodup →
      ∀ (cs : List ℕ), cs ∈ injective_tuples avail k ↔
        cs.length = k ∧ cs.Nodup ∧ ∀ c ∈ cs, c ∈ avail := by
  intro k
  induction k with
  | zero =>
    intro avail _ cs
    simp only [injective_tuples, List.mem_singleton]
    constructor
    · rintro rfl; exact ⟨rfl, List.nodup_nil, by simp⟩
    · intro ⟨h1, _, _⟩
      exact List.eq_nil_of_length_eq_zero h1
  | succ k ih =>
    intro avail hav cs
    simp only [injective_tuples, List.mem_flatMap, List.mem_map]
    constructor
    · rintro ⟨c, hc, cs', hcs', rfl⟩
      have := (ih (avail.erase c) (hav.erase c) cs').mp hcs'
      refine ⟨by simp [this.1], ?_, ?_⟩
      · rw [List.nodup_cons]
        refine ⟨fun hmem => ?_, this.2.1⟩
        have := this.2.2 c hmem
        exact (List.Nodup.not_mem_erase hav) this
      · intro d hd
        rcases List.mem_cons.mp hd with h | h
        · exact h ▸ hc
        · exact List.mem_of_mem_erase (this.2.2 d h)
    · intro ⟨h1, h2, h3⟩
      match cs, h1 with
      | c :: cs', h1 =>
        refine ⟨c, h3 c (List.mem_cons_self _ _), cs', ?_, rfl⟩
        rw [List.nodup_cons] at h2
        refine (ih (avail.erase c) (hav.erase c) cs').mpr
          ⟨by simp only [List.length_cons] at h1; omega, h2.2, ?_⟩
        intro d hd
        refine (List.mem_erase_of_ne ?_).mpr (h3 d (List.mem_cons_of_mem _ hd))
        intro hdc
        exact h2.1 (hdc ▸ hd)

/-- The enumerated candidate assignments are all valid: row indices
    ascending from `0`, distinct in-bounds rows and columns, covering
    `min(m,n)` pairs. -/
theorem assignment_candidates_valid (M : List (List ℚ)) :
    ∀ c ∈ assignment_candidates M,
      (c.map Prod.fst).Nodup ∧ (c.map Prod.snd).Nodup ∧
        (∀ p ∈ c, p.1 < nrows M ∧ p.2 < ncols M) := by
  intro c hc
  unfold assignment_candidates at hc
  split at hc
  · next hmn =>
    rcases List.mem_map.mp hc with ⟨cs, hcs, rfl⟩
    have hchar := (mem_injective_tuples (nrows M) (List.range (ncols M))
      (List.nodup_range _) cs).mp hcs
    have hlen : (List.range (nrows M)).length ≤ cs.length := by
      simp [hchar.1]
    constructor
    · rw [List.map_fst_zip _ _ hlen]
      exact List.nodup_range _
    constructor
    · rw [List.map_snd_zip _ _ (by simp [hchar.1])]
      exact hchar.2.1
    · intro p hp
      have h1 := List.of_mem_zip hp
      constructor
      · have := h1.1; simpa using this
      · have := hchar.2.2 p.2 h1.2; simpa using this
  · next hmn =>
    rcases List.mem_map.mp hc with ⟨rs, hrs, rfl⟩
    have hchar := (mem_injective_tuples (ncols M) (List.range (nrows M))
      (List.nodup_range _) rs).mp hrs
    constructor
    · rw [List.map_fst_zip _ _ (by simp [hchar.1])]
      exact hchar.2.1
    constructor
    · rw [List.map_snd_zip _ _ (by simp [hchar.1])]
      exact List.nodup_range _
    · intro p hp
      have h1 := List.of_mem_zip hp
      constructor
      · have := hchar.2.2 p.1 h1.1; simpa using this
      · have := h1.2; simpa using this

/-- The Hungarian step returns a valid one-to-one in-bounds assignment. -/
theorem find_optimal_matches_valid (M : List (List ℚ)) :
    ((find_optimal_matches M).map Prod.fst).Nodup ∧
      ((find_optimal_matches M).map Prod.snd).Nodup ∧
      ∀ p ∈ find_optimal_matches M, p.1 < nrows M ∧ p.2 < ncols M := by
  unfold find_optimal_matches
  cases hcand : assignment_candidates M with
  | nil =>
    simp [argmax_by, sort_by_row]
  | cons c cs =>
    obtain ⟨best, hbest, hmem, _⟩ := argmax_by_spec (pair_sum M) c cs
    rw [hbest]
    have hvalid := assignment_candidates_valid M best (by rw [hcand]; exact hmem)
    have hperm := sort_by_row_perm best
    simp only [Option.getD_some]
    refine ⟨(hperm.map Prod.fst).nodup_iff.mpr hvalid.1,
      (hperm.map Prod.snd).nodup_iff.mpr hvalid.2.1, ?_⟩
    intro p hp
    exact hvalid.2.2 p (hperm.mem_iff.mp hp)

/-- A valid one-to-one assignment against a matrix: distinct in-bounds
    rows and distinct in-bounds columns. -/
def valid_assignment (M : List (List ℚ)) (pairs : List (ℕ × ℕ)) : Prop :=
  (pairs.map Prod.fst).Nodup ∧ (pairs.map Prod.snd).Nodup ∧
    ∀ p ∈ pairs, p.1 < nrows M ∧ p.2 < ncols M

instance (M : List (List ℚ)) (pairs : List (ℕ × ℕ)) :
    Decidable (valid_assignment M pairs) := by
  unfold valid_assignment
  infer_instance

/-- A pair list with `m` distinct first components below `m` is, up to
    permutation, `zip [0..m) cs` where `cs` is a permutation of the
    second components. -/
theorem perm_zip_of_valid :
    ∀ (m : ℕ) (pairs : List (ℕ × ℕ)), pairs.length = m →
      (pairs.map Prod.fst).Nodup → (∀ p ∈ pairs, p.1 < m) →
      ∃ cs : List ℕ, cs.length = m ∧ pairs.Perm ((List.range m).zip cs) ∧
        cs.Perm (pairs.map Prod.snd) := by
  intro m
  induction m with
  | zero =>
    intro pairs hlen _ _
    refine ⟨[], rfl, ?_, ?_⟩
    · rw [List.eq_nil_of_length_eq_zero hlen]; rfl
    · rw [List.eq_nil_of_length_eq_zero hlen]; rfl
  | succ m ih =>
    intro pairs hlen hnd hbound
    -- the fsts are m+1 distinct values below m+1, so value m occurs
    have hfst : m ∈ pairs.map Prod.fst := by
      by_contra hm
      have hsub : ∀ x ∈ pairs.map Prod.fst, x ∈ (List.range m) := by
        intro x hx
        rcases List.mem_map.mp hx with ⟨p, hp, rfl⟩
        have := hbound p hp
        have hne : p.1 ≠ m := fun he => hm (he ▸ hx)
        exact List.mem_range.mpr (by omega)
      have hsp := List.subperm_of_subset hnd hsub
      have hcard := hsp.length_le
      simp [hlen] at hcard
    rcases List.mem_map.mp hfst with ⟨p0, hp0, hp0fst⟩
    rcases List.append_of_mem hp0 with ⟨l1, l2, rfl⟩
    have hperm0 : (l1 ++ p0 :: l2).Perm (p0 :: (l1 ++ l2)) := List.perm_middle
    have hrest_len : (l1 ++ l2).length = m := by
      have := hperm0.length_eq
      simp only [List.length_cons] at this
      omega
    have hnd_cons : ¬ p0.1 ∈ (l1 ++ l2).map Prod.fst ∧
        ((l1 ++ l2).map Prod.fst).Nodup := by
      have := (hperm0.map Prod.fst).nodup_iff.mp hnd
      simpa only [List.map_cons, List.nodup_cons] using this
    have hrest_bound : ∀ p ∈ l1 ++ l2, p.1 < m := by
      intro p hp
      have h1 : p ∈ l1 ++ p0 :: l2 := hperm0.mem_iff.mpr (List.mem_cons_of_mem _ hp)
      have h2 := hbound p h1
      have h3 : p.1 ≠ m := by
        intro hpm
        exact hnd_cons.1 (hp0fst ▸ hpm ▸ List.mem_map_of_mem Prod.fst hp)
      omega
    obtain ⟨cs, hcslen, hcsperm, hcssnd⟩ := ih (l1 ++ l2) hrest_len
      hnd_cons.2 hrest_bound
    refine ⟨cs ++ [p0.2], by simp [hcslen], ?_, ?_⟩
    · have hzip : (List.range (m + 1)).zip (cs ++ [p0.2]) =
          ((List.range m).zip cs) ++ [(m, p0.2)] := by
        rw [List.range_succ]
        rw [List.zip_append (by simp [hcslen])]
        rfl
      rw [hzip]
      have hp0eq : (m, p0.2) = p0 := by
        rw [← hp0fst]
      rw [hp0eq]
      exact (hperm0.trans (hcsperm.cons p0)).trans
        (List.perm_append_singleton p0 _).symm
    · have h3 : (cs ++ [p0.2]).Perm ((l1 ++ l2).map Prod.snd ++ [p0.2]) :=
        hcssnd.append_right [p0.2]
      have h4 : ((l1 ++ l2).map Prod.snd ++ [p0.2]).Perm
          (p0.2 :: (l1 ++ l2).map Prod.snd) := List.perm_append_singleton _ _
      exact h3.trans (h4.trans ((hperm0.map Prod.snd).symm))

theorem pair_sum_perm (M : List (List ℚ)) {l1 l2 : List (ℕ × ℕ)} (h : l1.Perm l2) :
    pair_sum M l1 = pair_sum M l2 :=
  (h.map _).sum_eq

theorem map_fst_swap (l : List (ℕ × ℕ)) :
    (l.map Prod.swap).map Prod.fst = l.map Prod.snd := by
  induction l <;> simp_all

theorem map_snd_swap (l : List (ℕ × ℕ)) :
    (l.map Prod.swap).map Prod.snd = l.map Prod.fst := by
  induction l <;> simp_all

theorem map_swap_swap (l : List (ℕ × ℕ)) : (l.map Prod.swap).map Prod.swap = l := by
  induction l <;> simp_all

theorem map_swap_zip (l1 l2 : List ℕ) :
    ((l1.zip l2).map Prod.swap) = l2.zip l1 := by
  induction l1 generalizing l2 with
  | nil => simp
  | cons a as ih =>
    cases l2 with
    | nil => simp
    | cons b bs => simp [ih]

/-- Every valid complete assignment has the same total score as one of
    the enumerated candidates. -/
theorem assignment_complete (M : List (List ℚ)) (pairs : List (ℕ × ℕ))
    (h : valid_assignment M pairs) (hlen : pairs.length = min (nrows M) (ncols M)) :
    ∃ c ∈ assignment_candidates M, pair_sum M c = pair_sum M pairs := by
  obtain ⟨hnd1, hnd2, hbounds⟩ := h
  unfold assignment_candidates
  by_cases hmn : nrows M ≤ ncols M
  · rw [if_pos hmn]
    have hlen' : pairs.length = nrows M := by rw [Nat.min_eq_left hmn] at hlen; exact hlen
    obtain ⟨cs, hcslen, hperm, hsnd⟩ := perm_zip_of_valid (nrows M) pairs hlen' hnd1
      (fun p hp => (hbounds p hp).1)
    refine ⟨(List.range (nrows M)).zip cs, ?_, (pair_sum_perm M hperm).symm⟩
    apply List.mem_map_of_mem
    apply (mem_injective_tuples (nrows M) (List.range (ncols M))
      (List.nodup_range _) cs).mpr
    refine ⟨hcslen, hsnd.nodup_iff.mpr hnd2, ?_⟩
    intro c hcmem
    rcases List.mem_map.mp (hsnd.mem_iff.mp hcmem) with ⟨p, hp, rfl⟩
    exact List.mem_range.mpr (hbounds p hp).2
  · rw [if_neg hmn]
    have hn : ncols M < nrows M := Nat.lt_of_not_le hmn
    have hlen' : pairs.length = ncols M := by
      rw [Nat.min_eq_right (le_of_lt hn)] at hlen; exact hlen
    obtain ⟨rs, hrslen, hperm, hsnd⟩ := perm_zip_of_valid (ncols M) (pairs.map Prod.swap)
      (by simp [hlen'])
      (by rw [map_fst_swap]; exact hnd2)
      (by
        intro p hp
        rcases List.mem_map.mp hp with ⟨q, hq, rfl⟩
        simpa using (hbounds q hq).2)
    have hpairs_perm : pairs.Perm (rs.zip (List.range (ncols M))) := by
      have := hperm.map Prod.swap
      rw [map_swap_swap, map_swap_zip] at this
      exact this
    refine ⟨rs.zip (List.range (ncols M)), ?_, (pair_sum_perm M hpairs_perm).symm⟩
    apply List.mem_map_of_mem
    apply (mem_injective_tuples (ncols M) (List.range (nrows M))
      (List.nodup_range _) rs).mpr
    have hrs_fst : rs.Perm (pairs.map Prod.fst) := by
      rw [← map_snd_swap]
      exact hsnd
    refine ⟨hrslen, hrs_fst.nodup_iff.mpr hnd1, ?_⟩
    intro r hrmem
    rcases List.mem_map.mp (hrs_fst.mem_iff.mp hrmem) with ⟨p, hp, rfl⟩
    exact List.mem_range.mpr (hbounds p hp).1

/-- The (unfiltered) Hungarian assignment maximises the total score over
    all valid complete assignments. -/
theorem hungarian_optimality (M : List (List ℚ)) (pairs : List (ℕ × ℕ))
    (hv : valid_assignment M pairs) (hlen : pairs.length = min (nrows M) (ncols M)) :
    pair_sum M pairs ≤ pair_sum M (find_optimal_matches M) := by
  obtain ⟨c, hc, hsum⟩ := assignment_complete M pairs hv hlen
  unfold find_optimal_matches
  cases hcand : assignment_candidates M with
  | nil =>
    rw [hcand] at hc
    exact absurd hc (List.not_mem_nil c)
  | cons c0 cs0 =>
    obtain ⟨best, hbest, hmem, hall⟩ := argmax_by_spec (pair_sum M) c0 cs0
    rw [hbest]
    simp only [Option.getD_some]
    rw [pair_sum_perm M (sort_by_row_perm best), ← hsum]
    exact hall c (by rw [← hcand]; exact hc)

/-! ### The phase trace of `generate_comparison` -/

theorem update_texts_combined_trace {s s' : MState}
    (h : update_texts_combined s = .ok s') :
    s'.trace = s.trace ++ [PhaseTag.split] := by
  unfold update_texts_combined at h
  cases hc : update_texts_combined_core s.ratio_threshold s.length_threshold
      s.texts_left s.texts_right with
  | error e => rw [hc] at h; exact Except.noConfusion h
  | ok r =>
    rw [hc] at h
    cases h
    rfl

theorem update_try_merge_trace {s s' : MState}
    (h : update_try_merge s = .ok s') :
    s'.trace = s.trace ++ [PhaseTag.merge] := by
  unfold update_try_merge at h
  cases hc : update_try_merge_core s.ratio_threshold s.texts_left s.texts_right with
  | error e => rw [hc] at h; exact Except.noConfusion h
  | ok r =>
    rw [hc] at h
    cases h
    rfl

/-- Whenever `generate_comparison` returns, exactly the phases
    split, split, merge, final-match were executed, in that order. -/
theorem generate_comparison_trace {s : MState} {mode : Mode}
    {r : List CompItem × MState} (h : generate_comparison s mode = .ok r) :
    r.2.trace = s.trace ++
      [PhaseTag.split, PhaseTag.split, PhaseTag.merge, PhaseTag.finalMatch] := by
  unfold generate_comparison at h
  simp only [bind, Except.bind] at h
  cases h1 : update_texts_combined s with
  | error e => rw [h1] at h; exact Except.noConfusion h
  | ok s1 =>
    rw [h1] at h
    simp only [bind, Except.bind] at h
    cases h2 : update_texts_combined s1 with
    | error e => rw [h2] at h; exact Except.noConfusion h
    | ok s2 =>
      rw [h2] at h
      simp only [bind, Except.bind] at h
      cases h3 : update_try_merge s2 with
      | error e => rw [h3] at h; exact Except.noConfusion h
      | ok s3 =>
        rw [h3] at h
        simp only [bind, Except.bind] at h
        cases h4 : generate_comparison_items s3 mode with
        | error e => rw [h4] at h; exact Except.noConfusion h
        | ok items =>
          rw [h4] at h
          simp only [] at h
          cases h
          have t1 := update_texts_combined_trace h1
          have t2 := update_texts_combined_trace h2
          have t3 := update_try_merge_trace h3
          simp only [t3, t2, t1, List.append_assoc]
          rfl

/-! ## Concrete inputs used by the claim theorems -/

/-- A one-word paragraph used as a generic matcher input. -/
def para_ab : Paragraph :=
  { text := "ab".toList, id := [] }

/-- The paragraph of the spec's equal-texts scenario. -/
def para_cat : Paragraph :=
  { text := "The cat sat.".toList, id := [] }

/-- The paragraph of the spec's empty-right-side scenario. -/
def para_hello : Paragraph :=
  { text := "Hello world".toList, id := [] }

/-- A score matrix on which the filtered assignment is not optimal among
    filtered assignments. -/
def c1_M : List (List ℚ) := [[100, 60], [49, 0]]

/-- Heading values whose best-path selection exhibits the stale tie-break
    range. -/
def c6_vals : List PyStr :=
  ["100".toList, "101".toList, "50".toList, "49".toList, "51".toList,
   "48".toList, "52".toList, "20".toList, "21".toList, "22".toList]

/-- The path the resolver actually selects on `c6_vals`. -/
def c6_selected : List Elt :=
  [⟨2, "50".toList⟩, ⟨4, "51".toList⟩, ⟨6, "52".toList⟩]

/-- A candidate path of equal length and strictly smaller span. -/
def c6_rival : List Elt :=
  [⟨7, "20".toList⟩, ⟨8, "21".toList⟩, ⟨9, "22".toList⟩]

/-! ## Helper lemmas for the claim theorems -/

/-- Mapping `g` over a `filterMap f` is a sublist of mapping `h` when `g`
    after `f` agrees with `h`. -/
theorem filterMap_map_sublist (f : α → Option β) (g : β → γ) (h : α → γ)
    (hc : ∀ a b, f a = some b → g b = h a) :
    ∀ l : List α, ((l.filterMap f).map g).Sublist (l.map h) := by
  intro l
  induction l with
  | nil => simp
  | cons a l ih =>
    cases hfa : f a with
    | none =>
      rw [List.filterMap_cons_none hfa, List.map_cons]
      exact ih.cons (h a)
    | some b =>
      rw [List.filterMap_cons_some hfa, List.map_cons, List.map_cons, hc a b hfa]
      exact ih.cons₂ (h a)

/-- `fuzz.ratio` of `"ab"` with itself is `100`. -/
theorem fuzz_ratio_ab : fuzz_ratio "ab".toList "ab".toList = 100 := by
  unfold fuzz_ratio
  rw [show lcs "ab".toList "ab".toList = 2 from by decide,
    show ("ab".toList).length = 2 from by decide]
  norm_num

/-- The matcher on two copies of `"ab"` returns the single perfect match. -/
theorem com_ab :
    compute_optimal_matches [para_ab] [para_ab] 50 =
      [⟨0, para_ab, 0, para_ab, 100⟩] := by
  have hM : calculate_score_matrix [para_ab] [para_ab] = [[100]] := by
    unfold calculate_score_matrix
    simp only [List.map]
    rw [show para_ab.text = "ab".toList from rfl, fuzz_ratio_ab]
  simp only [compute_optimal_matches, hM,
    show find_optimal_matches [[100]] = [(0, 0)] from by decide]
  rw [List.filterMap_cons]
  norm_num [entry]

/-- The selection loop of `find_best_path` returns one of the candidate
    paths and its length dominates every candidate's. -/
theorem fbp_go_mem_max :
    ∀ (rest : List (List Elt)) (best : List Elt) (br : Int),
      (fbp_go best br rest = best ∨ fbp_go best br rest ∈ rest) ∧
        best.length ≤ (fbp_go best br rest).length ∧
        ∀ p ∈ rest, p.length ≤ (fbp_go best br rest).length := by
  intro rest
  induction rest with
  | nil =>
    intro best br
    exact ⟨Or.inl rfl, le_refl _, by intro p hp; cases hp⟩
  | cons q rest ih =>
    intro best br
    unfold fbp_go
    split_ifs with h1 h2
    · obtain ⟨hm, hle, hall⟩ := ih q br
      refine ⟨?_, le_trans (le_of_lt h1) hle, ?_⟩
      · rcases hm with h | h
        · exact Or.inr (by rw [h]; exact List.mem_cons_self _ _)
        · exact Or.inr (List.mem_cons_of_mem _ h)
      · intro p hp
        rcases List.mem_cons.mp hp with rfl | hp
        · exact hle
        · exact hall p hp
    · obtain ⟨hm, hle, hall⟩ := ih q br
      refine ⟨?_, le_trans (le_of_eq h2.1.symm) hle, ?_⟩
      · rcases hm with h | h
        · exact Or.inr (by rw [h]; exact List.mem_cons_self _ _)
        · exact Or.inr (List.mem_cons_of_mem _ h)
      · intro p hp
        rcases List.mem_cons.mp hp with rfl | hp
        · exact hle
        · exact hall p hp
    · obtain ⟨hm, hle, hall⟩ := ih best br
      refine ⟨?_, hle, ?_⟩
      · rcases hm with h | h
        · exact Or.inl h
        · exact Or.inr (List.mem_cons_of_mem _ h)
      · intro p hp
        rcases List.mem_cons.mp hp with rfl | hp
        · exact le_trans (Nat.le_of_not_lt h1) hle
        · exact hall p hp

/-! ## The claims -/

/-- C8: for every pair of input strings (and any junk predicate), the
    opcodes of `get_edit_operations` tile both strings contiguously and
    exhaustively: the left spans concatenate to the left string, the right
    spans to the right string. -/
theorem claim_C8 (text_left text_right : PyStr) (junk : Option (Char → Bool)) :
    ((get_edit_operations text_left text_right junk).map
        (fun op => pySliceN text_left op.i1 op.i2)).flatten = text_left ∧
      ((get_edit_operations text_left text_right junk).map
        (fun op => pySliceN text_right op.j1 op.j2)).flatten = text_right :=
  get_opcodes_tiling (mk_seq_matcher junk text_left text_right)

/-- C9: a difference consisting only of junk characters never marks a
    text pair as changed, for any opcode tag; in particular
    `is_changed(tag, "a - b", "a_b")` is `false` for every tag. -/
theorem claim_C9 :
    (∀ (tag : String) (l r : PyStr), junkSub l = junkSub r →
        is_changed tag l r = false) ∧
      ∀ tag : String, is_changed tag "a - b".toList "a_b".toList = false := by
  constructor
  · intro tag l r h
    unfold is_changed
    split
    · rfl
    · simp [h]
  · intro tag
    unfold is_changed
    split
    · rfl
    · decide

theorem claim_C9_witness :
    is_changed "replace" "a - b".toList "a_b".toList = false :=
  claim_C9.1 "replace" "a - b".toList "a_b".toList (by decide)

/-- C7: every match returned by `compute_optimal_matches` has a score
    strictly greater than the ratio threshold. -/
theorem claim_C7 (texts_left texts_right : List Paragraph) (ratio_threshold : ℚ) :
    ∀ m ∈ compute_optimal_matches texts_left texts_right ratio_threshold,
      m.score > ratio_threshold := by
  intro m hm
  unfold compute_optimal_matches at hm
  simp only [List.mem_filterMap] at hm
  obtain ⟨p, _, hcond⟩ := hm
  split_ifs at hcond with hgt
  obtain rfl := (Option.some.injEq _ _).mp hcond
  exact hgt

theorem claim_C7_witness :
    (⟨0, para_ab, 0, para_ab, 100⟩ : Match5).score > 50 :=
  claim_C7 [para_ab] [para_ab] 50 ⟨0, para_ab, 0, para_ab, 100⟩
    (by simp [com_ab])

/-- C10: the match list of `compute_optimal_matches` is one-to-one and
    in bounds: left positions are distinct, right positions are distinct,
    and every position indexes its input list. -/
theorem claim_C10 (texts_left texts_right : List Paragraph) (thr : ℚ) :
    ((compute_optimal_matches texts_left texts_right thr).map
        Match5.pos_left).Nodup ∧
      ((compute_optimal_matches texts_left texts_right thr).map
        Match5.pos_right).Nodup ∧
      ∀ m ∈ compute_optimal_matches texts_left texts_right thr,
        m.pos_left < texts_left.length ∧ m.pos_right < texts_right.length := by
  obtain ⟨hndL, hndR, hbound⟩ :=
    find_optimal_matches_valid (calculate_score_matrix texts_left texts_right)
  have hsubL :
      ((compute_optimal_matches texts_left texts_right thr).map
        Match5.pos_left).Sublist
      ((find_optimal_matches (calculate_score_matrix texts_left texts_right)).map
        Prod.fst) := by
    unfold compute_optimal_matches
    exact filterMap_map_sublist _ _ _
      (by
        intro p m hpm
        split_ifs at hpm with hgt
        obtain rfl := (Option.some.injEq _ _).mp hpm
        rfl) _
  have hsubR :
      ((compute_optimal_matches texts_left texts_right thr).map
        Match5.pos_right).Sublist
      ((find_optimal_matches (calculate_score_matrix texts_left texts_right)).map
        Prod.snd) := by
    unfold compute_optimal_matches
    exact filterMap_map_sublist _ _ _
      (by
        intro p m hpm
        split_ifs at hpm with hgt
        obtain rfl := (Option.some.injEq _ _).mp hpm
        rfl) _
  refine ⟨hndL.sublist hsubL, hndR.sublist hsubR, ?_⟩
  intro m hm
  unfold compute_optimal_matches at hm
  simp only [List.mem_filterMap] at hm
  obtain ⟨p, hp, hcond⟩ := hm
  split_ifs at hcond with hgt
  obtain rfl := (Option.some.injEq _ _).mp hcond
  have hb := hbound p hp
  have hrow : nrows (calculate_score_matrix texts_left texts_right) =
      texts_left.length := by
    unfold nrows calculate_score_matrix
    exact List.length_map _ _
  have hcol : ncols (calculate_score_matrix texts_left texts_right) ≤
      texts_right.length := by
    unfold ncols calculate_score_matrix
    cases texts_left with
    | nil => simp
    | cons t ts => simp
  constructor
  · rw [hrow] at hb; exact hb.1
  · exact lt_of_lt_of_le hb.2 hcol

theorem claim_C10_witness :
    (⟨0, para_ab, 0, para_ab, 100⟩ : Match5).pos_left < [para_ab].length ∧
      (⟨0, para_ab, 0, para_ab, 100⟩ : Match5).pos_right < [para_ab].length :=
  (claim_C10 [para_ab] [para_ab] 50).2.2 ⟨0, para_ab, 0, para_ab, 100⟩
    (by simp [com_ab])

/-- C1 (counterexample): on `c1_M` with threshold `50` the returned
    filtered assignment is `[(0, 1)]` with sum `60`, while `[(0, 0)]` is a
    valid one-to-one assignment whose only pair scores `100 > 50`; its sum
    `100` beats the returned one, refuting optimality of the filtered
    assignment among above-threshold assignments. -/
theorem claim_C1_counterexample :
    valid_assignment c1_M [(0, 0)] ∧ entry c1_M 0 0 > 50 ∧
      compute_optimal_matches_matrix c1_M 50 = [(0, 1, 60)] ∧
      pair_sum c1_M ((compute_optimal_matches_matrix c1_M 50).map
        (fun t => (t.1, t.2.1))) < pair_sum c1_M [(0, 0)] := by
  have e00 : entry c1_M 0 0 = 100 := by decide
  have e01 : entry c1_M 0 1 = 60 := by decide
  have e10 : entry c1_M 1 0 = 49 := by decide
  have e11 : entry c1_M 1 1 = 0 := by decide
  have hs1 : pair_sum c1_M [(0, 0), (1, 1)] = 100 := by
    simp only [pair_sum, List.map_cons, List.map_nil, List.sum_cons, List.sum_nil]
    rw [e00, e11]; norm_num
  have hs2 : pair_sum c1_M [(0, 1), (1, 0)] = 109 := by
    simp only [pair_sum, List.map_cons, List.map_nil, List.sum_cons, List.sum_nil]
    rw [e01, e10]; norm_num
  have hmax : argmax_by (pair_sum c1_M) [[(0, 0), (1, 1)], [(0, 1), (1, 0)]] =
      some [(0, 1), (1, 0)] := by
    simp only [argmax_by, List.foldl_cons, List.foldl_nil]
    rw [if_pos (by rw [hs1, hs2]; norm_num)]
  have hfom : find_optimal_matches c1_M = [(0, 1), (1, 0)] := by
    unfold find_optimal_matches
    rw [show assignment_candidates c1_M =
      [[(0, 0), (1, 1)], [(0, 1), (1, 0)]] from by decide, hmax]
    decide
  have hmat : compute_optimal_matches_matrix c1_M 50 = [(0, 1, 60)] := by
    unfold compute_optimal_matches_matrix
    rw [hfom]
    decide
  refine ⟨by decide, by rw [e00]; norm_num, hmat, ?_⟩
  rw [hmat]
  simp only [List.map_cons, List.map_nil, pair_sum, List.sum_cons, List.sum_nil]
  rw [e01, e00]
  norm_num

/-- C1 (amended): optimality does hold for the unfiltered Hungarian
    assignment: every valid one-to-one assignment of full size
    `min(rows, cols)` has total score at most that of
    `find_optimal_matches`. -/
theorem claim_C1 (M : List (List ℚ)) (pairs : List (ℕ × ℕ))
    (hv : valid_assignment M pairs)
    (hlen : pairs.length = min (nrows M) (ncols M)) :
    pair_sum M pairs ≤ pair_sum M (find_optimal_matches M) :=
  hungarian_optimality M pairs hv hlen

theorem claim_C1_witness :
    pair_sum c1_M [(0, 1), (1, 0)] ≤ pair_sum c1_M (find_optimal_matches c1_M) :=
  claim_C1 c1_M [(0, 1), (1, 0)] (by decide) (by decide)

/-- The state `generate_comparison` returns on empty inputs. -/
def c2_final_state : MState :=
  { texts_left := [], texts_right := [], ratio_threshold := 1/2 * 100,
    length_threshold := 100,
    trace := [PhaseTag.split, PhaseTag.split, PhaseTag.merge, PhaseTag.finalMatch] }

/-- C2 (counterexample): on empty inputs `generate_comparison` succeeds
    and its phase trace records the split phase twice, not once. -/
theorem claim_C2_counterexample :
    (generate_comparison (TextMatcher_init [] [] (1/2) 100) Mode.html).map
        (fun r => r.2.trace.count PhaseTag.split) = .ok 2 := rfl

/-- C2 (amended): whenever `generate_comparison` returns, the executed
    phases are exactly split, split, merge, final-match, in that order:
    the split phase runs exactly twice before the merge phase. -/
theorem claim_C2 (s : MState) (mode : Mode) (r : List CompItem × MState)
    (h : generate_comparison s mode = .ok r) :
    r.2.trace = s.trace ++
      [PhaseTag.split, PhaseTag.split, PhaseTag.merge, PhaseTag.finalMatch] :=
  generate_comparison_trace h

theorem claim_C2_witness :
    (([], c2_final_state) : List CompItem × MState).2.trace =
      (TextMatcher_init [] [] (1/2) 100).trace ++
        [PhaseTag.split, PhaseTag.split, PhaseTag.merge, PhaseTag.finalMatch] :=
  claim_C2 (TextMatcher_init [] [] (1/2) 100) Mode.html ([], c2_final_state) rfl

/-- C4: with `texts_left=["Hello world"]` and an empty right side,
    `generate_comparison` does not return a "removed" record: the merge
    phase calls `min` on the empty match-position list and raises
    `ValueError`, for every mode and length threshold. -/
theorem claim_C4 (mode : Mode) (length_threshold : ℚ) :
    generate_comparison
        (TextMatcher_init [para_hello] [] (1/2) length_threshold) mode =
      .error (.valueError "min() arg is an empty sequence") := by
  cases mode <;> rfl

/-- C6 (counterexample): on `c6_vals` the resolver selects
    `c6_selected = [50, 51, 52]` (positions 2, 4, 6, span 4), although the
    graph enumerates the candidate path `c6_rival = [20, 21, 22]`
    (positions 7, 8, 9) of equal length and strictly smaller span: the
    tie-break by span is not respected. -/
theorem claim_C6_counterexample :
    graph_builder_best_path c6_vals 100 = some c6_selected ∧
      ((make_full_graph (init_sequence c6_vals) 100).map
          (fun gr => decide ((⟨7, "20".toList⟩ : Elt) ∈ gr.2))) = some true ∧
      ((make_full_graph (init_sequence c6_vals) 100).bind
          (fun gr => find_paths gr.1 100 ⟨7, "20".toList⟩ [])) =
        some [c6_rival] ∧
      c6_rival.length = c6_selected.length ∧
      path_range c6_rival < path_range c6_selected := by
  refine ⟨by decide, by decide, by decide, by decide, by decide⟩

/-- C6 (amended): `find_best_path` on a non-empty candidate list returns
    one of the candidates, of maximum length; the tie-break among paths of
    maximal length is what fails (see the counterexample). -/
theorem claim_C6 (paths : List (List Elt)) (h : paths ≠ []) :
    find_best_path paths ∈ paths ∧
      ∀ p ∈ paths, p.length ≤ (find_best_path paths).length := by
  cases paths with
  | nil => exact absurd rfl h
  | cons best rest =>
    simp only [find_best_path]
    obtain ⟨hm, hle, hall⟩ := fbp_go_mem_max rest best (path_range best)
    refine ⟨?_, ?_⟩
    · rcases hm with heq | hmem
      · rw [heq]; exact List.mem_cons_self _ _
      · exact List.mem_cons_of_mem _ hmem
    · intro p hp
      rcases List.mem_cons.mp hp with rfl | hp
      · exact hle
      · exact hall p hp

theorem claim_C6_witness :
    find_best_path [[(⟨0, "1".toList⟩ : Elt)]] ∈ [[(⟨0, "1".toList⟩ : Elt)]] ∧
      ∀ p ∈ [[(⟨0, "1".toList⟩ : Elt)]],
        p.length ≤ (find_best_path [[(⟨0, "1".toList⟩ : Elt)]]).length :=
  claim_C6 [[⟨0, "1".toList⟩]] (by decide)

/-- `split_into_sentences` on the spec scenario's text: one sentence. -/
theorem split_cat :
    split_into_sentences "The cat sat.".toList = ["The cat sat.".toList] := by decide

/-- The scenario text matches itself perfectly. -/
theorem fuzz_cat : fuzz_ratio "The cat sat.".toList "The cat sat.".toList = 100 := by
  unfold fuzz_ratio
  rw [show lcs "The cat sat.".toList "The cat sat.".toList = 12 from by decide,
    show ("The cat sat.".toList).length = 12 from by decide]
  norm_num

/-- The matcher pairs the two copies of the scenario paragraph. -/
theorem com_cat :
    compute_optimal_matches [para_cat] [para_cat] (1/2 * 100) =
      [⟨0, para_cat, 0, para_cat, 100⟩] := by
  have hM : calculate_score_matrix [para_cat] [para_cat] = [[100]] := by
    unfold calculate_score_matrix
    simp only [List.map]
    rw [show para_cat.text = "The cat sat.".toList from rfl, fuzz_cat]
  simp only [compute_optimal_matches, hM,
    show find_optimal_matches [[100]] = [(0, 0)] from by decide]
  rw [List.filterMap_cons]
  rw [if_pos (by rw [show entry [[100]] 0 0 = 100 from by decide]; norm_num)]
  rfl

/-- Splitting the matched pair raises: the sentence list has one element,
    so unpacking two values fails. -/
theorem sct_cat (ops : List Opcode) (lt : ℚ) :
    split_combined_text para_cat para_cat ops lt =
      .error (.valueError "not enough values to unpack (expected 2, got 1)") := by
  unfold split_combined_text
  rw [show para_cat.text = "The cat sat.".toList from rfl, split_cat]
  rfl

/-- The split phase on the scenario state raises the unpack error. -/
theorem utc_cat (lt : ℚ) :
    update_texts_combined_core (1/2 * 100) lt [para_cat] [para_cat] =
      .error (.valueError "not enough values to unpack (expected 2, got 1)") := by
  unfold update_texts_combined_core
  rw [com_cat]
  simp only [List.map_cons, List.map_nil, bind, Except.bind]
  rw [show get_match_tags [para_cat] [para_cat] =
    [get_edit_operations para_cat.text para_cat.text] from rfl]
  simp only [List.enum, List.enumFrom, List.reverse_cons, List.reverse_nil,
    List.nil_append, List.foldlM, bind, Except.bind]
  rw [show ([para_cat].getD 0 default) = para_cat from rfl]
  rw [sct_cat]

/-- C3: on the spec's scenario `texts_left = texts_right = ["The cat sat."]`
    with ratio threshold `0.5`, `generate_comparison` does not return an
    "equal" record: the split phase unpacks two values from the
    single-sentence split and raises `ValueError`, for every mode and
    length threshold. -/
theorem claim_C3 (mode : Mode) (lt : ℚ) :
    generate_comparison (TextMatcher_init [para_cat] [para_cat] (1/2) lt) mode =
      .error (.valueError "not enough values to unpack (expected 2, got 1)") := by
  unfold generate_comparison
  simp only [bind, Except.bind]
  rw [show update_texts_combined (TextMatcher_init [para_cat] [para_cat] (1/2) lt) =
      .error (.valueError "not enough values to unpack (expected 2, got 1)") from by
    unfold update_texts_combined TextMatcher_init
    simp only [bind, Except.bind]
    rw [utc_cat]]

/-! ## Claim C5: a chain of strictly increasing headings -/

theorem digit_char_isDigit (d : ℕ) : (digit_char d).isDigit = true := by
  unfold digit_char
  split <;> decide

theorem digit_char_toNat (d : ℕ) (h : d < 10) : (digit_char d).toNat - 48 = d := by
  interval_cases d <;> rfl

theorem nds_all_digit (n : ℕ) : ∀ c ∈ nat_dig_str n, c.isDigit = true := by
  induction n using Nat.strong_induction_on with
  | _ n ih =>
    rw [nat_dig_str]
    split
    · intro c hc
      rcases List.mem_singleton.mp hc with rfl
      exact digit_char_isDigit n
    · intro c hc
      rcases List.mem_append.mp hc with h | h
      · exact ih (n / 10) (Nat.div_lt_self (by omega) (by omega)) c h
      · rcases List.mem_singleton.mp h with rfl
        exact digit_char_isDigit (n % 10)

theorem nds_ne_nil (n : ℕ) : nat_dig_str n ≠ [] := by
  rw [nat_dig_str]
  split
  · simp
  · simp

theorem digits_val_append (l : List Char) (c : Char) :
    digits_val (l ++ [c]) = 10 * digits_val l + (c.toNat - 48) := by
  unfold digits_val
  rw [List.foldl_append]
  rfl

theorem digits_val_nds (n : ℕ) : digits_val (nat_dig_str n) = n := by
  induction n using Nat.strong_induction_on with
  | _ n ih =>
    rw [nat_dig_str]
    split
    · rename_i h
      show digits_val [digit_char n] = n
      unfold digits_val
      simp only [List.foldl_cons, List.foldl_nil]
      rw [Nat.mul_zero, Nat.zero_add, digit_char_toNat n h]
    · rename_i h
      rw [digits_val_append, ih (n / 10) (Nat.div_lt_self (by omega) (by omega)),
        digit_char_toNat (n % 10) (Nat.mod_lt _ (by omega))]
      omega

theorem digit_ne (c : Char) (h : c.isDigit = true) (d : Char)
    (hd : d.isDigit = false) : c ≠ d := by
  intro heq
  rw [heq, hd] at h
  exact Bool.noConfusion h

theorem digit_not_space (c : Char) (h : c.isDigit = true) : isPySpace c = false := by
  unfold isPySpace
  have h1 := digit_ne c h ' ' (by decide)
  have h2 := digit_ne c h '\t' (by decide)
  have h3 := digit_ne c h '\n' (by decide)
  have h4 := digit_ne c h '\r' (by decide)
  have h5 := digit_ne c h '\x0b' (by decide)
  have h6 := digit_ne c h '\x0c' (by decide)
  simp [h1, h2, h3, h4, h5, h6]

theorem dropWhile_no_space (s : PyStr) (h : ∀ c ∈ s, c.isDigit = true) :
    s.dropWhile isPySpace = s := by
  cases s with
  | nil => rfl
  | cons c cs =>
    rw [List.dropWhile_cons, digit_not_space c (h c (List.mem_cons_self _ _))]
    rfl

theorem pyStrip_digits (s : PyStr) (h : ∀ c ∈ s, c.isDigit = true) :
    pyStrip s = s := by
  unfold pyStrip
  rw [dropWhile_no_space s h,
    dropWhile_no_space s.reverse (fun c hc => h c (List.mem_reverse.mp hc)),
    List.reverse_reverse]

theorem int_body_nds (n : ℕ) : int_body_ok (nat_dig_str n) = true := by
  have hdig := nds_all_digit n
  have hne := nds_ne_nil n
  unfold int_body_ok
  simp only [Bool.and_eq_true]
  refine ⟨⟨⟨⟨?_, ?_⟩, ?_⟩, ?_⟩, ?_⟩
  · cases hs : nat_dig_str n with
    | nil => exact absurd hs hne
    | cons c cs => rfl
  · cases hs : nat_dig_str n with
    | nil => exact absurd hs hne
    | cons c cs =>
      simp only [List.headD_cons]
      exact hdig c (by rw [hs]; exact List.mem_cons_self _ _)
  · rcases List.mem_cons.mp (List.getLastD_mem_cons (nat_dig_str n) '0') with h | h
    · rw [h]; decide
    · exact hdig _ h
  · rw [List.all_eq_true]
    intro c hc
    rw [hdig c hc]
    rfl
  · rw [List.all_eq_true]
    intro p hp
    have h1 := hdig p.1 (List.mem_zip hp).1
    have hne1 : (p.1 = '_') = False := by
      simp [digit_ne p.1 h1 '_' (by decide)]
    simp [hne1]

theorem filter_underscore_nds (n : ℕ) :
    (nat_dig_str n).filter (fun x => decide (x ≠ '_')) = nat_dig_str n := by
  rw [List.filter_eq_self]
  intro c hc
  simp [digit_ne c (nds_all_digit n c hc) '_' (by decide)]

theorem to_int_nds (n : ℕ) : to_int_or_zero (nat_dig_str n) = (n : Int) := by
  have hdig := nds_all_digit n
  unfold to_int_or_zero
  rw [pyStrip_digits _ hdig]
  dsimp only
  split
  · rename_i rest heq
    have := hdig '+' (by rw [heq]; exact List.mem_cons_self _ _)
    exact absurd this (by decide)
  · rename_i rest heq
    have := hdig '-' (by rw [heq]; exact List.mem_cons_self _ _)
    exact absurd this (by decide)
  · rw [if_pos (int_body_nds n), filter_underscore_nds, digits_val_nds]

theorem pySplitOn_go_no_sep (sep : Char) :
    ∀ (s cur : PyStr), (∀ c ∈ s, c ≠ sep) →
      pySplitOn.go sep cur s = [cur.reverse ++ s] := by
  intro s
  induction s with
  | nil =>
    intro cur h
    simp [pySplitOn.go]
  | cons c rest ih =>
    intro cur h
    rw [pySplitOn.go]
    rw [if_neg (by simpa using h c (List.mem_cons_self _ _))]
    rw [ih (c :: cur) (fun d hd => h d (List.mem_cons_of_mem _ hd))]
    simp

theorem pySplitOn_no_sep (sep : Char) (s : PyStr) (h : ∀ c ∈ s, c ≠ sep) :
    pySplitOn sep s = [s] := by
  unfold pySplitOn
  rw [pySplitOn_go_no_sep sep s [] h]
  rfl

theorem compare_fct_nds (n : ℕ) : compare_fct (nat_dig_str n) = [[(n : Int)]] := by
  have hdig := nds_all_digit n
  unfold compare_fct
  rw [pySplitOn_no_sep '-' _
    (fun c hc => digit_ne c (hdig c hc) '-' (by decide))]
  simp only [List.map_cons, List.map_nil]
  rw [pySplitOn_no_sep '.' _
    (fun c hc => digit_ne c (hdig c hc) '.' (by decide))]
  simp only [List.map_cons, List.map_nil, to_int_nds]

theorem value_lt_nds (a b : ℕ) :
    value_lt (nat_dig_str a) (nat_dig_str b) = decide (a < b) := by
  unfold value_lt
  rw [compare_fct_nds, compare_fct_nds]
  rcases lt_trichotomy a b with h | h | h
  · simp [nested_lt, int_list_lt, h]
  · subst h
    simp [nested_lt, int_list_lt, lt_irrefl]
  · simp [nested_lt, int_list_lt, h, Nat.lt_asymm h, not_lt_of_gt h]

theorem value_gt_nds (a b : ℕ) :
    value_gt (nat_dig_str a) (nat_dig_str b) = decide (b < a) := by
  unfold value_gt
  rw [compare_fct_nds, compare_fct_nds]
  rcases lt_trichotomy b a with h | h | h
  · simp [nested_lt, int_list_lt, h]
  · subst h
    simp [nested_lt, int_list_lt, lt_irrefl]
  · simp [nested_lt, int_list_lt, h, Nat.lt_asymm h, not_lt_of_gt h]

/-- The element at position `k` of the increasing heading sequence. -/
def cElt (k : ℕ) : Elt := ⟨k, nat_dig_str k⟩

/-- The initialised sequence of the first `n` heading numbers. -/
def cSeq (n : ℕ) : List Elt := (List.range n).map cElt

theorem cElt_inj {i j : ℕ} : cElt i = cElt j ↔ i = j := by
  constructor
  · intro h
    exact congrArg Elt.position h
  · intro h
    rw [h]

theorem cSeq_length (n : ℕ) : (cSeq n).length = n := by
  simp [cSeq]

theorem cSeq_getD (n k : ℕ) (h : k < n) : (cSeq n).getD k default = cElt k := by
  rw [List.getD_eq_getElem?_getD]
  simp [cSeq, h]

theorem init_sequence_eq_cSeq (n : ℕ) :
    init_sequence ((List.range n).map nat_dig_str) = cSeq n := by
  apply List.ext_getElem
  · simp [init_sequence, cSeq]
  · intro i h1 h2
    simp [init_sequence, cSeq, cElt]

theorem cSeq_enum (n : ℕ) :
    (cSeq n).enum = (List.range n).map (fun k => (k, cElt k)) := by
  apply List.ext_getElem
  · simp [cSeq]
  · intro i h1 h2
    simp [cSeq, List.getElem_enum]

theorem find?_ge_range' (k : ℕ) :
    ∀ (cnt s : ℕ), s ≤ k + 1 →
      (List.range' s cnt).find? (fun i => decide (k < i) && decide (k + 1 ≤ i)) =
        if k + 1 < s + cnt then some (k + 1) else none := by
  intro cnt
  induction cnt with
  | zero =>
    intro s hs
    rw [Nat.add_zero, if_neg (by omega)]
    rfl
  | succ cnt ih =>
    intro s hs
    rw [List.range'_succ, List.find?_cons]
    by_cases hsk : s = k + 1
    · subst hsk
      rw [show (decide (k < k + 1) && decide (k + 1 ≤ k + 1)) = true from by simp]
      rw [if_pos (by omega)]
    · rw [show (decide (k < s) && decide (k + 1 ≤ s)) = false from by
        simp only [Bool.and_eq_false_iff, decide_eq_false_iff_not]
        right
        omega]
      rw [ih (s + 1) (by omega)]
      by_cases hlt : k + 1 < s + 1 + cnt
      · rw [if_pos hlt, if_pos (by omega)]
      · rw [if_neg hlt, if_neg (by omega)]

theorem find_larger_cseq (n k : ℕ) :
    find_larger (cElt k) (cSeq n) (k + 1) =
      if k + 1 < n then some (k + 1) else none := by
  unfold find_larger
  rw [cSeq_enum, List.find?_map]
  have hfun : ((fun (p : ℕ × Elt) =>
        value_gt p.2.value (cElt k).value && decide (k + 1 ≤ p.1)) ∘
      (fun i => (i, cElt i))) = fun i => decide (k < i) && decide (k + 1 ≤ i) := by
    funext i
    simp only [Function.comp, cElt, value_gt_nds]
  rw [hfun, List.range_eq_range', find?_ge_range' k n 0 (by omega)]
  by_cases h : k + 1 < n
  · rw [if_pos (by omega), if_pos h]
    rfl
  · rw [if_neg (by omega), if_neg h]
    rfl

theorem find_smaller_cseq (n k start : ℕ) :
    find_smaller (cElt k) (cElt (k + 1)) (cSeq n) start = none := by
  unfold find_smaller
  rw [Option.map_eq_none']
  apply List.find?_eq_none.mpr
  intro p hp
  rw [cSeq_enum] at hp
  obtain ⟨i, hi, rfl⟩ := List.mem_map.mp hp
  simp only [cElt, value_lt_nds, Bool.and_eq_true, decide_eq_true_eq, not_and]
  intro h1 h2
  omega

theorem staircase_cseq (n k : ℕ) :
    staircase (cSeq n) (cElt k) (cElt (k + 1)) (k + 2) [cElt (k + 1)] =
      [cElt (k + 1)] := by
  unfold staircase
  generalize (cSeq n).length - (k + 2) = gas
  cases gas with
  | zero => rfl
  | succ g =>
    rw [staircase_go]
    by_cases h : k + 2 < (cSeq n).length
    · rw [if_pos h, find_smaller_cseq]
    · rw [if_neg h]

theorem cElt_pos (k : ℕ) : (cElt k).position = k := rfl

theorem alGet_not_mem [DecidableEq κ] (al : List (κ × ν)) (k : κ) (d : ν)
    (h : ∀ p ∈ al, p.1 ≠ k) : alGet al k d = d := by
  unfold alGet
  rw [List.find?_eq_none.mpr (by intro p hp; simpa using h p hp)]

theorem dict_merge_nil (g : HGraph) : dict_merge [] g = g := by
  unfold dict_merge
  simp

theorem dict_merge_single (e : Elt) (nb : List Elt) (g : HGraph)
    (h : ∀ p ∈ g, p.1 ≠ e) :
    dict_merge [(e, nb)] g = (e, nb) :: g := by
  unfold dict_merge
  rw [List.map_cons, List.map_nil]
  rw [show alGet g (e, nb).1 (e, nb).2 = nb from alGet_not_mem g e nb h]
  rw [List.filter_eq_self.mpr (by
    intro q hq
    simp only [List.any_cons, List.any_nil, Bool.or_false, Bool.not_eq_true']
    exact decide_eq_false (fun he => h q hq (he ▸ rfl)))]
  rfl

/-- The staircase graph built from position `k` on: each element points to
    its successor. -/
def chain_graph (k n : ℕ) : HGraph :=
  (List.range' k (n - 1 - k)).map (fun i => (cElt i, [cElt (i + 1)]))

/-- The visited positions accumulated from position `k` on, newest first. -/
def chain_vis (k n : ℕ) : List ℕ := (List.range' k (n - k)).reverse

theorem chain_graph_key (j n : ℕ) {p : Elt × List Elt}
    (hp : p ∈ chain_graph j n) :
    ∃ i, j ≤ i ∧ i + 1 < n ∧ p = (cElt i, [cElt (i + 1)]) := by
  obtain ⟨i, hi, rfl⟩ := List.mem_map.mp hp
  rw [List.mem_range'_1] at hi
  exact ⟨i, hi.1, by omega, rfl⟩

theorem chain_graph_last (k n : ℕ) (h : n ≤ k + 1) : chain_graph k n = [] := by
  unfold chain_graph
  rw [show n - 1 - k = 0 from by omega]
  rfl

theorem chain_graph_cons (k n : ℕ) (h : k + 1 < n) :
    chain_graph k n = (cElt k, [cElt (k + 1)]) :: chain_graph (k + 1) n := by
  unfold chain_graph
  rw [show n - 1 - k = (n - 1 - (k + 1)) + 1 from by omega]
  rfl

theorem chain_vis_last (k n : ℕ) (h1 : k < n) (h2 : n ≤ k + 1) :
    chain_vis k n = [k] := by
  unfold chain_vis
  rw [show n - k = 1 from by omega]
  rfl

theorem chain_vis_cons (k n : ℕ) (h : k + 1 < n) :
    chain_vis k n = chain_vis (k + 1) n ++ [k] := by
  unfold chain_vis
  rw [show n - k = (n - (k + 1)) + 1 from by omega]
  rw [show List.range' k (n - (k + 1) + 1) = k :: List.range' (k + 1) (n - (k + 1))
    from rfl]
  rw [List.reverse_cons]

theorem fln_step (n k f : ℕ) (visited : List ℕ) (hk : k < n) (hnv : k ∉ visited) :
    find_larger_neighbours (cSeq n) (f + 1) (cElt k) visited =
      if k + 1 < n then
        (find_larger_neighbours (cSeq n) f (cElt (k + 1)) (k :: visited)).map
          (fun r => (dict_merge [(cElt k, [cElt (k + 1)])] r.1, r.2))
      else some ([], k :: visited) := by
  simp only [find_larger_neighbours, cElt_pos, cSeq_length]
  rw [if_neg (by push_neg; exact ⟨by omega, hnv⟩)]
  rw [show (k + 1 : ℕ) = k + 1 from rfl, find_larger_cseq]
  by_cases h : k + 1 < n
  · rw [if_pos h, if_pos h]
    dsimp only
    rw [cSeq_getD n (k + 1) h, staircase_cseq]
    simp only [List.foldlM, bind_pure]
  · rw [if_neg h, if_neg h]

theorem fln_chain (n : ℕ) :
    ∀ (gap k : ℕ) (visited : List ℕ) (fuel : ℕ), k < n → n - k = gap →
      (∀ m ∈ visited, m < k) →
      (fuel < gap → find_larger_neighbours (cSeq n) fuel (cElt k) visited = none) ∧
      (gap ≤ fuel →
        find_larger_neighbours (cSeq n) fuel (cElt k) visited =
          some (chain_graph k n, chain_vis k n ++ visited)) := by
  intro gap
  induction gap with
  | zero =>
    intro k visited fuel hk hgap hvis
    omega
  | succ g ih =>
    intro k visited fuel hk hgap hvis
    have hnv : k ∉ visited := fun hm => absurd (hvis k hm) (lt_irrefl k)
    constructor
    · intro hfuel
      cases fuel with
      | zero => rfl
      | succ f =>
        rw [fln_step n k f visited hk hnv]
        have hg : 1 ≤ g := by omega
        rw [if_pos (by omega : k + 1 < n)]
        rw [(ih (k + 1) (k :: visited) f (by omega) (by omega)
          (by
            intro m hm
            rcases List.mem_cons.mp hm with rfl | hm
            · omega
            · exact Nat.lt_succ_of_lt (hvis m hm))).1 (by omega)]
        rfl
    · intro hfuel
      cases fuel with
      | zero => omega
      | succ f =>
        rw [fln_step n k f visited hk hnv]
        by_cases hg : k + 1 < n
        · rw [if_pos hg]
          rw [(ih (k + 1) (k :: visited) f (by omega) (by omega)
            (by
              intro m hm
              rcases List.mem_cons.mp hm with rfl | hm
              · omega
              · exact Nat.lt_succ_of_lt (hvis m hm))).2 (by omega)]
          rw [Option.map_some']
          rw [dict_merge_single _ _ _ (by
            intro p hp
            obtain ⟨i, hij, hin, rfl⟩ := chain_graph_key (k + 1) n hp
            intro he
            rw [cElt_inj] at he
            omega)]
          rw [← chain_graph_cons k n hg, chain_vis_cons k n hg]
          rw [List.append_assoc, List.singleton_append]
        · rw [if_neg hg]
          rw [chain_graph_last k n (by omega), chain_vis_last k n hk (by omega)]
          rfl

theorem cSeq_cons (n : ℕ) (h : 1 ≤ n) :
    cSeq n = cElt 0 :: (List.range' 1 (n - 1)).map cElt := by
  obtain ⟨m, rfl⟩ : ∃ m, n = m + 1 := ⟨n - 1, by omega⟩
  unfold cSeq
  rw [List.range_eq_range']
  rfl

theorem mfg_step_visited (n f : ℕ) (e : Elt) (vis : List ℕ)
    (h : e.position ∈ vis) :
    find_larger_neighbours (cSeq n) (f + 1) e vis = some ([], vis) := by
  simp only [find_larger_neighbours]
  rw [if_pos (Or.inr h)]

theorem mfg_skip (n fuel : ℕ) (hf : 1 ≤ fuel) :
    ∀ (l : List Elt) (g : HGraph) (roots : List Elt) (vis : List ℕ),
      (∀ e ∈ l, e.position ∈ vis) →
      l.foldlM
        (fun (acc : HGraph × List Elt × List ℕ) element =>
          (find_larger_neighbours (cSeq n) fuel element acc.2.2).map
            (fun r =>
              if r.1 ≠ [] then (dict_merge acc.1 r.1, acc.2.1 ++ [element], r.2)
              else (acc.1, acc.2.1, r.2)))
        (g, roots, vis) = some (g, roots, vis) := by
  intro l
  induction l with
  | nil =>
    intro g roots vis h
    rfl
  | cons e l ih =>
    intro g roots vis h
    obtain ⟨f, rfl⟩ : ∃ f, fuel = f + 1 := ⟨fuel - 1, by omega⟩
    rw [List.foldlM_cons]
    dsimp only
    rw [mfg_step_visited n f e vis (h e (List.mem_cons_self _ _))]
    rw [Option.map_some']
    rw [if_neg (by simp)]
    dsimp only
    simp only [bind, Option.bind]
    exact ih g roots vis (fun e' he' => h e' (List.mem_cons_of_mem _ he'))

theorem mfg_none (n fuel : ℕ) (h1 : 1 ≤ n) (hf : fuel < n) :
    make_full_graph (cSeq n) fuel = none := by
  unfold make_full_graph
  nth_rewrite 2 [cSeq_cons n h1]
  rw [List.foldlM_cons]
  dsimp only
  rw [(fln_chain n n 0 [] fuel (by omega) (by omega) (by simp)).1 hf]
  rfl

theorem mfg_some (n fuel : ℕ) (h2 : 2 ≤ n) (hf : n ≤ fuel) :
    make_full_graph (cSeq n) fuel = some (chain_graph 0 n, [cElt 0]) := by
  unfold make_full_graph
  nth_rewrite 2 [cSeq_cons n (by omega)]
  rw [List.foldlM_cons]
  dsimp only
  rw [(fln_chain n n 0 [] fuel (by omega) (by omega) (by simp)).2 (by omega)]
  rw [Option.map_some']
  rw [if_pos (by rw [chain_graph_cons 0 n (by omega)]; simp)]
  dsimp only
  simp only [bind, Option.bind]
  rw [dict_merge_nil, List.append_nil, List.nil_append]
  rw [mfg_skip n fuel (by omega) _ _ _ _ (by
    intro e he
    obtain ⟨i, hi, rfl⟩ := List.mem_map.mp he
    rw [List.mem_range'_1] at hi
    unfold chain_vis
    rw [cElt_pos, List.mem_reverse, List.mem_range'_1]
    omega)]
  rfl

/-- The full increasing path from position `k` to the end. -/
def chain_path (k n : ℕ) : List Elt := (List.range' k (n - k)).map cElt

theorem chain_path_zero (n : ℕ) : chain_path 0 n = cSeq n := by
  unfold chain_path cSeq
  rw [Nat.sub_zero, List.range_eq_range']

theorem chain_path_last (k n : ℕ) (h1 : k < n) (h2 : n ≤ k + 1) :
    chain_path k n = [cElt k] := by
  unfold chain_path
  rw [show n - k = 1 from by omega]
  rfl

theorem chain_path_cons (k n : ℕ) (h : k + 1 < n) :
    chain_path k n = cElt k :: chain_path (k + 1) n := by
  unfold chain_path
  rw [show n - k = (n - (k + 1)) + 1 from by omega]
  rfl

theorem chain_find_aux (k : ℕ) :
    ∀ (m s : ℕ),
      ((List.range' s m).map (fun i => (cElt i, [cElt (i + 1)]))).find?
          (fun p => p.1 = cElt k) =
        if s ≤ k ∧ k < s + m then some (cElt k, [cElt (k + 1)]) else none := by
  intro m
  induction m with
  | zero =>
    intro s
    rw [if_neg (by omega)]
    rfl
  | succ m ih =>
    intro s
    rw [show List.range' s (m + 1) = s :: List.range' (s + 1) m from rfl,
      List.map_cons, List.find?_cons]
    by_cases hs : s = k
    · subst hs
      rw [show (decide (((cElt s, [cElt (s + 1)]) : Elt × List Elt).1 = cElt s)) =
        true from by simp]
      rw [if_pos (by omega)]
    · rw [show (decide (((cElt s, [cElt (s + 1)]) : Elt × List Elt).1 = cElt k)) =
        false from by simp [cElt_inj, hs]]
      rw [ih (s + 1)]
      by_cases hk : s + 1 ≤ k ∧ k < s + 1 + m
      · rw [if_pos hk, if_pos (by omega)]
      · rw [if_neg hk, if_neg (by omega)]

theorem chain_graph_find (n k : ℕ) :
    (chain_graph 0 n).find? (fun p => p.1 = cElt k) =
      if k + 1 < n then some (cElt k, [cElt (k + 1)]) else none := by
  unfold chain_graph
  rw [chain_find_aux k (n - 1 - 0) 0]
  by_cases h : k + 1 < n
  · rw [if_pos (by omega), if_pos h]
  · rw [if_neg (by omega), if_neg h]

theorem fp_chain (n : ℕ) :
    ∀ (gap k : ℕ) (path : List Elt) (fuel : ℕ), k < n → n - k = gap →
      (fuel < gap → find_paths (chain_graph 0 n) fuel (cElt k) path = none) ∧
      (gap ≤ fuel →
        find_paths (chain_graph 0 n) fuel (cElt k) path =
          some [path ++ chain_path k n]) := by
  intro gap
  induction gap with
  | zero =>
    intro k path fuel hk hgap
    omega
  | succ g ih =>
    intro k path fuel hk hgap
    constructor
    · intro hfuel
      cases fuel with
      | zero => rfl
      | succ f =>
        simp only [find_paths]
        rw [chain_graph_find n k, if_pos (by omega : k + 1 < n)]
        dsimp only
        rw [if_neg (by simp)]
        simp only [List.foldlM]
        rw [(ih (k + 1) (path ++ [cElt k]) f (by omega) (by omega)).1 (by omega)]
        rfl
    · intro hfuel
      cases fuel with
      | zero => omega
      | succ f =>
        simp only [find_paths]
        rw [chain_graph_find n k]
        by_cases hg : k + 1 < n
        · rw [if_pos hg]
          dsimp only
          rw [if_neg (by simp)]
          simp only [List.foldlM]
          rw [(ih (k + 1) (path ++ [cElt k]) f (by omega) (by omega)).2 (by omega)]
          simp only [Option.map_some', List.nil_append, bind_pure]
          rw [chain_path_cons k n hg]
          simp [List.append_assoc]
        · rw [if_neg hg]
          rw [chain_path_last k n hk (by omega)]

theorem fbpis_chain (n fuel : ℕ) (h1 : 1 ≤ n) :
    (fuel < n →
      find_best_path_in_sequence (chain_graph 0 n) [cElt 0] fuel = none) ∧
      (n ≤ fuel →
        find_best_path_in_sequence (chain_graph 0 n) [cElt 0] fuel =
          some (chain_path 0 n)) := by
  unfold find_best_path_in_sequence
  constructor
  · intro hf
    simp only [List.foldlM]
    rw [(fp_chain n n 0 [] fuel (by omega) (by omega)).1 hf]
    rfl
  · intro hf
    simp only [List.foldlM]
    rw [(fp_chain n n 0 [] fuel (by omega) (by omega)).2 hf]
    rfl

theorem gbp_chain (n : ℕ) (h2 : 2 ≤ n) (fuel : ℕ) :
    (fuel < n →
      graph_builder_best_path ((List.range n).map nat_dig_str) fuel = none) ∧
      (n ≤ fuel →
        graph_builder_best_path ((List.range n).map nat_dig_str) fuel =
          some (cSeq n)) := by
  unfold graph_builder_best_path
  rw [init_sequence_eq_cSeq]
  dsimp only
  constructor
  · intro hf
    rw [mfg_none n fuel (by omega) hf]
    rfl
  · intro hf
    rw [mfg_some n fuel h2 hf]
    simp only [bind, Option.bind]
    rw [(fbpis_chain n fuel (by omega)).2 hf, chain_path_zero]

/-- C5: for the sequence of 1000 strictly increasing heading numbers
    `["0", "1", ..., "999"]`, the resolver does not complete for any stack
    budget below 1000 nested calls (`none` models Python's
    `RecursionError`, raised since the recursion of
    `find_larger_neighbours` descends once per element); only with at
    least 1000 frames available would it return the full increasing
    path. -/
theorem claim_C5 :
    (∀ fuel, fuel < 1000 →
        graph_builder_best_path ((List.range 1000).map nat_dig_str) fuel = none) ∧
      ∀ fuel, 1000 ≤ fuel →
        graph_builder_best_path ((List.range 1000).map nat_dig_str) fuel =
          some (init_sequence ((List.range 1000).map nat_dig_str)) := by
  constructor
  · intro fuel hf
    exact (gbp_chain 1000 (by omega) fuel).1 hf
  · intro fuel hf
    rw [(gbp_chain 1000 (by omega) fuel).2 hf, init_sequence_eq_cSeq]

theorem claim_C5_witness :
    graph_builder_best_path ((List.range 1000).map nat_dig_str) 999 = none ∧
      graph_builder_best_path ((List.range 1000).map nat_dig_str) 1000 =
        some (init_sequence ((List.range 1000).map nat_dig_str)) :=
  ⟨claim_C5.1 999 (by decide), claim_C5.2 1000 (by decide)⟩

end DocComparer
